import Mathlib

/-!
Verification of the quickwit write-ahead log (WAL).

Shallow embedding of the WAL core (`quickwit-wal`: segment codec, segment
writer and reader, WAL writer and reader, directory listing and truncation)
and of the WAL ingest source (`quickwit-indexing`).

Modelling conventions:
* bytes are `Nat` values; where a fact needs the `u8` range it carries the
  hypothesis that every byte is below 256;
* files are `List Nat`; a WAL directory is a list of pairs
  `(base_offset, content)` standing for the file named after `base_offset`;
* `SEGMENT_MAX_NUM_BYTES` is a parameter `smax` of every definition that
  reads it, since the source selects 64 under the test configuration and
  128000000 otherwise;
* fallible operations return `Except WalError`.
-/

namespace QuickwitWal

/-- Magic constant 1337 = 0x0539 opening every frame. -/
def HEADER_MAGIC : Nat := 1337

/-- Header width: magic (2) + crc (4) + payload length (4). -/
def HEADER_NUM_BYTES : Nat := 10

/-- Production value of the segment size threshold. -/
def SEGMENT_MAX_NUM_BYTES_PROD : Nat := 128000000

/-- Test-configuration value of the segment size threshold. -/
def SEGMENT_MAX_NUM_BYTES_TEST : Nat := 64

/-- Error kinds surfaced by the WAL (the source uses `anyhow` messages). -/
inductive WalError where
  /-- bail with message ReadError: a magic mismatch in `next`. -/
  | readError
  /-- bail with message CorruptionError: CRC mismatch or non-contiguous dir. -/
  | corruptionError
  /-- an UnexpectedEof io error propagated out of a header or payload read. -/
  | unexpectedEof
  /-- any other io error, such as opening a file that does not exist. -/
  | ioError
  /-- bail with a SeekError message. -/
  | seekError
  /-- opening a reader on a directory without segment files. -/
  | noSegments
deriving DecidableEq, Repr

/-- Little-endian encoding of a 16-bit value (`write_u16_le`). -/
def writeU16le (x : Nat) : List Nat :=
  [x % 256, x / 256 % 256]

/-- Little-endian encoding of a 32-bit value (`write_u32_le`). -/
def writeU32le (x : Nat) : List Nat :=
  [x % 256, x / 256 % 256, x / 256 ^ 2 % 256, x / 256 ^ 3 % 256]

/-- Little-endian read of a 16-bit value from the head of a byte list
(`read_u16_le`); the default 0 is never reached on the paths that use it,
because callers check that two bytes are available first. -/
def readU16le : List Nat → Nat
  | b0 :: b1 :: _ => b0 + 256 * b1
  | _ => 0

/-- Little-endian read of a 32-bit value from the head of a byte list
(`read_u32_le`). -/
def readU32le : List Nat → Nat
  | b0 :: b1 :: b2 :: b3 :: _ => b0 + 256 * b1 + 256 ^ 2 * b2 + 256 ^ 3 * b3
  | _ => 0

/-- Reflected CRC-32 polynomial used by `crc32fast`. -/
def CRC32_POLY : Nat := 0xEDB88320

/-- One bit-round of the reflected CRC-32 computation. -/
def crc32Round (c : Nat) : Nat :=
  if c % 2 = 1 then (c / 2) ^^^ CRC32_POLY else c / 2

/-- Fold one byte into the CRC-32 state: xor it in, then eight bit-rounds. -/
def crc32Byte (c b : Nat) : Nat :=
  crc32Round^[8] (c ^^^ b)

/-- CRC-32 (IEEE, reflected) of a byte sequence, as computed by
`crc32fast::hash`. -/
def crc32 (bytes : List Nat) : Nat :=
  (bytes.foldl crc32Byte 0xFFFFFFFF) ^^^ 0xFFFFFFFF

/-- The frame written by `SegmentWriter::append`: magic, CRC-32 of the
payload, payload length as `u32` (hence reduced mod `2 ^ 32`), payload. -/
def encodeFrame (payload : List Nat) : List Nat :=
  writeU16le HEADER_MAGIC ++ writeU32le (crc32 payload) ++
    writeU32le (payload.length % 2 ^ 32) ++ payload

/-- One step of `SegmentReader::next` on the byte content `data` of a segment
file, reading at position `pos`. Returns the decoded payload (or `none` on a
clean end of file) together with the updated `current_pos`. Mirrors the
source: a failed two-byte magic read (fewer than 2 bytes left) yields
`Ok(None)`; a wrong magic bails with ReadError; a failed CRC, length or
payload read propagates the io error; a CRC mismatch bails with
CorruptionError. -/
def segNext (data : List Nat) (pos : Nat) :
    Except WalError (Option (List Nat) × Nat) :=
  let rem := data.drop pos
  if rem.length < 2 then .ok (none, pos)
  else if readU16le rem ≠ HEADER_MAGIC then .error .readError
  else
    let rem2 := rem.drop 2
    if rem2.length < 4 then .error .unexpectedEof
    else
      let checksum := readU32le rem2
      let rem3 := rem2.drop 4
      if rem3.length < 4 then .error .unexpectedEof
      else
        let payloadLen := readU32le rem3
        let rem4 := rem3.drop 4
        if rem4.length < payloadLen then .error .unexpectedEof
        else
          let payload := rem4.take payloadLen
          if checksum ≠ crc32 payload then .error .corruptionError
          else .ok (some payload, pos + HEADER_NUM_BYTES + payloadLen)

/-- Model of `SegmentWriter`. `data` holds every byte written through the
buffered writer, so `data.length` is exactly the `current_pos` counter of the
source; `flushed` counts the prefix of `data` already pushed to the file. -/
structure SegmentWriter where
  base_offset : Nat
  data : List Nat
  flushed : Nat
deriving DecidableEq, Repr

/-- `SegmentWriter::create`: a fresh (empty) segment file. -/
def SegmentWriter.create (base_offset : Nat) : SegmentWriter :=
  ⟨base_offset, [], 0⟩

/-- `SegmentWriter::append`: write one frame through the buffered writer and
return the number of bytes written. -/
def SegmentWriter.append (w : SegmentWriter) (entry : List Nat) :
    SegmentWriter × Nat :=
  ({ w with data := w.data ++ encodeFrame entry },
    HEADER_NUM_BYTES + entry.length)

/-- `SegmentWriter::flush`: push the buffered bytes to the file. -/
def SegmentWriter.flush (w : SegmentWriter) : SegmentWriter :=
  { w with flushed := w.data.length }

/-- `SegmentWriter::num_bytes` (the `current_pos` counter). -/
def SegmentWriter.num_bytes (w : SegmentWriter) : Nat := w.data.length

/-- `SegmentWriter::current_offset`. -/
def SegmentWriter.current_offset (w : SegmentWriter) : Nat :=
  w.base_offset + w.data.length

/-- The on-disk content of the segment file held by a segment writer. -/
def SegmentWriter.fileData (w : SegmentWriter) : List Nat :=
  w.data.take w.flushed

/-- Model of `SegmentReader`: the content of the segment file plus the
`current_pos` cursor. -/
structure SegmentReader where
  base_offset : Nat
  data : List Nat
  current_pos : Nat
deriving DecidableEq, Repr

/-- `SegmentReader::next` at the level of reader states. -/
def SegmentReader.next (sr : SegmentReader) :
    Except WalError (Option (List Nat) × SegmentReader) :=
  match segNext sr.data sr.current_pos with
  | .error e => .error e
  | .ok (o, pos) => .ok (o, { sr with current_pos := pos })

/-- `SegmentReader::num_bytes` (bytes consumed so far). -/
def SegmentReader.num_bytes (sr : SegmentReader) : Nat := sr.current_pos

/-- `SegmentReader::current_offset`. -/
def SegmentReader.current_offset (sr : SegmentReader) : Nat :=
  sr.base_offset + sr.current_pos

/-- `SegmentReader::seek`: bail outside `[base, base + smax)`; position the
file cursor at `offset - base`; peek the next two bytes and bail when two
bytes are available and they differ from the magic. -/
def segSeek (smax : Nat) (sr : SegmentReader) (offset : Nat) :
    Except WalError SegmentReader :=
  if offset < sr.base_offset ∨ sr.base_offset + smax ≤ offset then
    .error .seekError
  else
    let pos := offset - sr.base_offset
    let buffer := sr.data.drop pos
    if 2 ≤ buffer.length ∧ readU16le buffer ≠ HEADER_MAGIC then
      .error .seekError
    else .ok { sr with current_pos := pos }

/-- A directory entry: the segment file named after its base offset (the
20-digit file name is studied separately with C9) with its byte content. -/
abbrev DirFile := Nat × List Nat

/-- Model of the `Segment` metadata assembled by `list_segments`:
`top_offset = base_offset + file size`. -/
structure Segment where
  base_offset : Nat
  top_offset : Nat
deriving DecidableEq, Repr

/-- Insertion step of the sort by base offset. -/
def insertSeg (s : Segment) : List Segment → List Segment
  | [] => [s]
  | t :: ts =>
      if s.base_offset ≤ t.base_offset then s :: t :: ts
      else t :: insertSeg s ts

/-- The `sort_by base_offset` call of `list_segments`, as insertion sort. -/
def sortSegs (l : List Segment) : List Segment := l.foldr insertSeg []

/-- The segment records of a directory, sorted by base offset. -/
def segmentsOfDir (dir : List DirFile) : List Segment :=
  sortSegs (dir.map fun f => ⟨f.1, f.1 + f.2.length⟩)

/-- The adjacent-windows contiguity check of `list_segments`. -/
def checkContiguous : List Segment → Bool
  | s1 :: s2 :: rest =>
      s1.top_offset == s2.base_offset && checkContiguous (s2 :: rest)
  | _ => true

/-- `list_segments`: build a segment record per file, sort ascending by base
offset, and bail with CorruptionError when some adjacent pair is not
contiguous. -/
def list_segments (dir : List DirFile) : Except WalError (List Segment) :=
  let segs := segmentsOfDir dir
  if checkContiguous segs then .ok segs else .error .corruptionError

/-- `truncate_wal`: list the segments, pop the write segment off the
candidates, then walk the candidates in ascending order deleting files whose
`top_offset` is at most `offset`, stopping at the first that is not. Returns
the directory left after the deletions. -/
def truncate_wal (dir : List DirFile) (offset : Nat) :
    Except WalError (List DirFile) := do
  let segs ← list_segments dir
  let candidates := segs.dropLast
  let deleted := candidates.takeWhile fun s => decide (s.top_offset ≤ offset)
  pure (dir.filter fun f => ! (deleted.map Segment.base_offset).contains f.1)

/-- Model of `Reader`: the directory it reads from plus the active segment
reader. The directory is a fixed snapshot; the claims under study perform no
writes concurrent with reading. -/
structure Reader where
  dir : List DirFile
  sr : SegmentReader
deriving DecidableEq, Repr

/-- `SegmentReader::open` on the file named after `base`; opening a file that
does not exist fails with an io error. -/
def openSegment (dir : List DirFile) (base : Nat) :
    Except WalError SegmentReader :=
  match dir.find? fun f => f.1 == base with
  | some f => .ok ⟨base, f.2, 0⟩
  | none => .error .ioError

/-- `Reader::open`: list the segments; fail when there are none; otherwise
open a segment reader on the first (lowest base offset) segment. -/
def Reader.open (dir : List DirFile) : Except WalError Reader := do
  let segs ← list_segments dir
  match segs with
  | [] => .error .noSegments
  | s :: _ => do
      let sr ← openSegment dir s.base_offset
      .ok ⟨dir, sr⟩

/-- `Reader::current_offset`. -/
def Reader.current_offset (r : Reader) : Nat := r.sr.current_offset

/-- `Reader::next`: when the current segment reader has consumed at least
`smax` bytes, first re-open on the segment whose base equals the current
offset; then delegate to the segment reader. -/
def Reader.next (smax : Nat) (r : Reader) :
    Except WalError (Option (List Nat) × Reader) := do
  let sr ← if smax ≤ r.sr.num_bytes then openSegment r.dir r.sr.current_offset
    else .ok r.sr
  match segNext sr.data sr.current_pos with
  | .error e => .error e
  | .ok (o, pos) => .ok (o, ⟨r.dir, { sr with current_pos := pos }⟩)

/-- `Reader::seek`. The first guarded test is the no-op check; then the
min and max of the WAL range are the head base offset and the last top
offset; the `partition_point` call of the source is modelled as the length of
the maximal `top_offset ≤ offset` prefix, which is what `partition_point`
returns because `list_segments` only produces contiguous ascending lists, on
which the predicate holds exactly on a prefix. -/
def Reader.seek (smax : Nat) (r : Reader) (offset : Nat) :
    Except WalError Reader :=
  if r.current_offset = offset then .ok r
  else do
    let segs ← list_segments r.dir
    if segs.isEmpty then .error .noSegments
    else if offset < (segs.headD ⟨0, 0⟩).base_offset ∨
        (segs.getLastD ⟨0, 0⟩).top_offset < offset then
      .error .seekError
    else do
      let sr ← openSegment r.dir ((segs.getD
        (min (segs.takeWhile fun s => decide (s.top_offset ≤ offset)).length
          (segs.length - 1)) ⟨0, 0⟩).base_offset)
      let sr2 ← segSeek smax sr offset
      .ok ⟨r.dir, sr2⟩

/-- `k` calls to `Reader::next`, collecting each returned option. -/
def readN (smax : Nat) (r : Reader) : Nat →
    Except WalError (List (Option (List Nat)))
  | 0 => .ok []
  | k + 1 => do
      let (o, r2) ← Reader.next smax r
      let rest ← readN smax r2 k
      .ok (o :: rest)

/-- Model of `Writer`: the fully flushed sealed segment files plus the active
segment writer. -/
structure Writer where
  sealed : List DirFile
  active : SegmentWriter
deriving DecidableEq, Repr

/-- `Writer::open` on an empty directory: create the segment based at 0. -/
def Writer.openEmpty : Writer := ⟨[], SegmentWriter.create 0⟩

/-- The directory produced by a writer: the sealed segment files plus the
flushed prefix of the active segment. -/
def Writer.dir (w : Writer) : List DirFile :=
  w.sealed ++ [(w.active.base_offset, w.active.fileData)]

/-- `Writer::append`: when the active segment already holds at least `smax`
bytes, flush it, seal it, and start a fresh segment whose base is the old
writer current offset; then append the record through the active segment
writer. -/
def Writer.append (smax : Nat) (w : Writer) (payload : List Nat) : Writer :=
  let w2 := if smax ≤ w.active.num_bytes then
      ({ sealed := w.sealed ++ [(w.active.base_offset, w.active.flush.data)],
         active := SegmentWriter.create w.active.current_offset } : Writer)
    else w
  { w2 with active := (w2.active.append payload).1 }

/-- `Writer::flush`. -/
def Writer.flush (w : Writer) : Writer := { w with active := w.active.flush }

/-- `Writer::current_offset`. -/
def Writer.current_offset (w : Writer) : Nat := w.active.current_offset

/-- One call of the WAL writer API exercised by the claims. -/
inductive WalOp where
  | append (payload : List Nat)
  | flush
deriving DecidableEq, Repr

def Writer.applyOp (smax : Nat) (w : Writer) : WalOp → Writer
  | .append p => Writer.append smax w p
  | .flush => Writer.flush w

/-- The writer obtained by opening an empty directory and running `ops`. -/
def walAfter (smax : Nat) (ops : List WalOp) : Writer :=
  ops.foldl (Writer.applyOp smax) Writer.openEmpty

/-- The payloads appended by a sequence of writer operations, in order. -/
def opsPayloads (ops : List WalOp) : List (List Nat) :=
  ops.filterMap fun op => match op with
    | .append p => some p
    | .flush => none

/-- The byte content of a list of records framed in sequence. -/
def framesBytes (fs : List (List Nat)) : List Nat :=
  (fs.map encodeFrame).flatten

/-- Every record of a framed group starts strictly below `smax` within its
segment (the writer only appends to a segment holding under `smax` bytes, so
a segment overruns `smax` by at most its final record). -/
def frameStartsOk (smax : Nat) (fs : List (List Nat)) : Prop :=
  ∀ i < fs.length, (framesBytes (fs.take i)).length < smax

/-- Payload well-formedness: u8 bytes and a length that fits the u32 field. -/
def payloadsOk (fs : List (List Nat)) : Prop :=
  ∀ p ∈ fs, p.length < 2 ^ 32 ∧ ∀ b ∈ p, b < 256

/-- An abstract WAL layout: segment base offsets with the records stored in
each segment. `chain smax b0 L` states that bases are contiguous starting at
`b0`, records start below `smax` within their segments, payloads are
well-formed, and every non-last (sealed) segment holds at least `smax`
bytes. -/
def chain (smax : Nat) : Nat → List (Nat × List (List Nat)) → Prop
  | _, [] => True
  | b0, (b, fs) :: rest =>
      b = b0 ∧ frameStartsOk smax fs ∧ payloadsOk fs ∧
      (rest ≠ [] → smax ≤ (framesBytes fs).length) ∧
      chain smax (b + (framesBytes fs).length) rest

/-- The writer invariant: the sealed files and the active data are framed
records laid out as a contiguous chain starting at 0, the active segment is
empty only in the initial state, and the payloads written are exactly `ps`. -/
def WInv (smax : Nat) (w : Writer) (ps : List (List Nat)) : Prop :=
  ∃ L afr,
    w.sealed = L.map (fun s => (s.1, framesBytes s.2)) ∧
    w.active.data = framesBytes afr ∧
    chain smax 0 (L ++ [(w.active.base_offset, afr)]) ∧
    (afr = [] → L = []) ∧
    ps = (L.map Prod.snd).flatten ++ afr

/-- The segment records described by an abstract layout: one per sealed
segment of `L`, then the active segment based at `ab` whose file currently
holds `fsize` bytes. -/
def layoutSegs (L : List (Nat × List (List Nat))) (ab fsize : Nat) :
    List Segment :=
  (L.map fun s => ⟨s.1, s.1 + (framesBytes s.2).length⟩) ++ [⟨ab, ab + fsize⟩]

/-- The directory files of an abstract layout (all segments fully flushed). -/
def dirOfLayout (L : List (Nat × List (List Nat))) : List DirFile :=
  L.map fun s => (s.1, framesBytes s.2)

/-- `SEGMENT_FILE_NAME_LEN`. -/
def SEGMENT_FILE_NAME_LEN : Nat := 20

/-- Outcome of the filename parse on the Rust side: a value, a recoverable
error, or a process panic (an out-of-range byte slice of the name). -/
inductive ParseOutcome where
  | ok (n : Nat)
  | err
  | panic
deriving DecidableEq, Repr

/-- An ASCII decimal digit byte. File names are modelled as their UTF-8 byte
lists. -/
def isDigitByte (c : Nat) : Bool := 48 ≤ c && c ≤ 57

/-- Value of a big-endian decimal digit byte string. -/
def decimalValue (cs : List Nat) : Nat :=
  cs.foldl (fun acc c => acc * 10 + (c - 48)) 0

/-- A UTF-8 continuation byte. -/
def isCont (b : Nat) : Bool := 128 ≤ b && b ≤ 191

/-- Constraint on the second byte of a three-byte UTF-8 sequence (rules out
overlong encodings after 0xE0 and surrogates after 0xED). -/
def utf8Second (b c1 : Nat) : Bool :=
  if b = 224 then 160 ≤ c1 && c1 ≤ 191
  else if b = 237 then 128 ≤ c1 && c1 ≤ 159
  else isCont c1

/-- Constraint on the second byte of a four-byte UTF-8 sequence (rules out
overlong encodings after 0xF0 and values beyond U+10FFFF after 0xF4). -/
def utf8SecondF (b c1 : Nat) : Bool :=
  if b = 240 then 144 ≤ c1 && c1 ≤ 191
  else if b = 244 then 128 ≤ c1 && c1 ≤ 143
  else isCont c1

/-- UTF-8 validity of a byte sequence, as decided by Rust
`String::from_utf8` and `OsStr::to_str`. -/
def utf8Valid : List Nat → Bool
  | [] => true
  | b :: rest =>
      if b < 128 then utf8Valid rest
      else if b < 194 then false
      else match rest with
        | [] => false
        | c1 :: rest1 =>
            if b ≤ 223 then isCont c1 && utf8Valid rest1
            else match rest1 with
              | [] => false
              | c2 :: rest2 =>
                  if b ≤ 239 then utf8Second b c1 && isCont c2 && utf8Valid rest2
                  else match rest2 with
                    | [] => false
                    | c3 :: rest3 =>
                        if b ≤ 244 then utf8SecondF b c1 && isCont c2 &&
                          isCont c3 && utf8Valid rest3
                        else false

/-- The digit part of Rust `str::parse::<u64>` after the optional sign: it
must be nonempty, all decimal digits, and its value must fit in a u64 (the
checked multiply-add chain overflows exactly when the final value does not
fit, since the accumulator is monotone). -/
def parseU64Digits (ds : List Nat) : ParseOutcome :=
  if ds ≠ [] ∧ ds.all isDigitByte ∧ decimalValue ds < 2 ^ 64 then
    .ok (decimalValue ds)
  else .err

/-- Rust `str::parse::<u64>` on a byte string: an optional leading plus sign
(a minus sign is not recognised for an unsigned type and falls through to
the digit check), then a nonempty string of decimal digits whose value fits
in a u64. -/
def parseU64 (cs : List Nat) : ParseOutcome :=
  parseU64Digits (if cs.head? = some 43 then cs.tail else cs)

/-- `segment_base_offset` on the file name bytes: `to_str().unwrap()` panics
when the name is not valid UTF-8; the slice `filename[0..20]` panics when
the name is shorter than `SEGMENT_FILE_NAME_LEN` bytes or when byte 20 is
not a char boundary (it falls inside a multi-byte character); otherwise the
first 20 bytes are parsed as a decimal u64. -/
def segment_base_offset (filename : List Nat) : ParseOutcome :=
  if utf8Valid filename = false then .panic
  else if filename.length < SEGMENT_FILE_NAME_LEN then .panic
  else if SEGMENT_FILE_NAME_LEN < filename.length ∧
      isCont (filename.getD SEGMENT_FILE_NAME_LEN 0) = true then .panic
  else parseU64 (filename.take SEGMENT_FILE_NAME_LEN)

/-- Big-endian decimal digit bytes of `n`, computed with enough fuel for any
u64 (empty for 0, as in the Rust formatting before padding). -/
def decimalDigitsAux : Nat → Nat → List Nat
  | 0, _ => []
  | fuel + 1, n =>
      if n = 0 then [] else decimalDigitsAux fuel (n / 10) ++ [48 + n % 10]

/-- The decimal digit bytes of a u64 base offset. -/
def decimalDigitBytes (n : Nat) : List Nat := decimalDigitsAux 20 n

/-- `segment_file_name`: the base offset left-padded with zeros to 20 digits,
followed by the `.log` extension. -/
def segment_file_name (base_offset : Nat) : List Nat :=
  List.replicate (SEGMENT_FILE_NAME_LEN - (decimalDigitBytes base_offset).length) 48
    ++ decimalDigitBytes base_offset ++ [46, 108, 111, 103]

/-- Modelled from the spec: `Position` of the `quickwit-metastore` checkpoint
module, which is not among the sources; the spec defines it as `Beginning` or
`Offset(u64)`. -/
inductive Position where
  | beginning
  | offset (off : Nat)
deriving DecidableEq, Repr

/-- Modelled from the spec: the strict total order on positions,
`Beginning < Offset(x)` and `Offset(x) < Offset(y)` iff `x < y`. -/
def Position.ltb : Position → Position → Bool
  | .beginning, .offset _ => true
  | .offset x, .offset y => decide (x < y)
  | _, _ => false

/-- Modelled from the spec: `CheckpointDelta::record_partition_delta` records
the triple `(partition_id, from_position, to_position)` and requires
`from < to`, failing otherwise. -/
def record_partition_delta (pid : String) (fromPos toPos : Position) :
    Except WalError (List (String × Position × Position)) :=
  if Position.ltb fromPos toPos then .ok [(pid, fromPos, toPos)]
  else .error .ioError

/-- The `Entry` handed out by `SegmentReader::next_entry`: the absolute
offset of its frame and its payload (its checksum field is unused by the
claims). -/
structure SrcEntry where
  offset : Nat
  payload : List Nat
deriving DecidableEq, Repr

/-- `Entry::next_offset`. -/
def SrcEntry.next_offset (e : SrcEntry) : Nat :=
  e.offset + e.payload.length + HEADER_NUM_BYTES

/-- `parse_record`: a record parses to a document exactly when it is valid
UTF-8 and nonempty (the Rust `String` byte length equals the payload length);
documents are modelled as their byte strings. -/
def parse_record (record : List Nat) : Option (List Nat) :=
  if utf8Valid record && decide (0 < record.length) then some record else none

/-- The state of a `WalSource` acted on by `emit_batches`; the reader is
modelled by the list of entries it yields before the loop stops. -/
structure WalSourceState where
  partition_id : String
  previous_position : Position
  current_offset : Nat
  num_bytes_processed : Nat
  num_records_processed : Nat
  num_invalid_records : Nat
deriving DecidableEq, Repr

/-- The per-entry body of the `emit_batches` loop: parse the record, push the
doc and count its bytes or count the record invalid, advance
`current_offset` to the entry next offset, update the counters, and stop
once the batch holds at least 5000000 bytes. -/
def processEntries (st : WalSourceState) (docs : List (List Nat))
    (batchBytes : Nat) :
    List SrcEntry → WalSourceState × List (List Nat) × Nat
  | [] => (st, docs, batchBytes)
  | e :: entries =>
      let parsed := parse_record e.payload
      let docs2 := match parsed with
        | some doc => docs ++ [doc]
        | none => docs
      let batchBytes2 := match parsed with
        | some _ => batchBytes + e.payload.length
        | none => batchBytes
      let st2 := { st with
        current_offset := e.next_offset,
        num_bytes_processed := st.num_bytes_processed + e.payload.length,
        num_records_processed := st.num_records_processed + 1,
        num_invalid_records := st.num_invalid_records +
          (match parsed with | some _ => 0 | none => 1) }
      if 5000000 ≤ batchBytes2 then (st2, docs2, batchBytes2)
      else processEntries st2 docs2 batchBytes2 entries

/-- The batch sent to the indexer mailbox. -/
structure RawDocBatch where
  docs : List (List Nat)
  checkpoint_delta : List (String × Position × Position)
deriving DecidableEq, Repr

/-- `emit_batches` over the entries read before the deadline or the end of
the log: run the loop; when at least one doc was collected, record a
checkpoint delta from the previous position to `Offset(current_offset)`,
replace the previous position by it, and send the batch. -/
def emit_batches (st : WalSourceState) (entries : List SrcEntry) :
    Except WalError (WalSourceState × Option RawDocBatch) :=
  match processEntries st [] 0 entries with
  | (st2, docs, _) =>
      if 0 < docs.length then
        match record_partition_delta st2.partition_id st2.previous_position
            (Position.offset st2.current_offset) with
        | .error e => .error e
        | .ok delta =>
            .ok ({ st2 with
              previous_position := Position.offset st2.current_offset },
              some ⟨docs, delta⟩)
      else .ok (st2, none)

/-- Entries arrive from the reader consecutively: the first starts at the
source current offset and each next entry starts where the previous one
ended. -/
def entriesChained : Nat → List SrcEntry → Prop
  | _, [] => True
  | off, e :: es => e.offset = off ∧ entriesChained e.next_offset es

theorem readU16le_writeU16le (x : Nat) (hx : x < 2 ^ 16) (r : List Nat) :
    readU16le (writeU16le x ++ r) = x := by
  simp only [writeU16le, List.cons_append, List.nil_append, readU16le]
  omega

theorem readU32le_writeU32le (x : Nat) (hx : x < 2 ^ 32) (r : List Nat) :
    readU32le (writeU32le x ++ r) = x := by
  simp only [writeU32le, List.cons_append, List.nil_append, readU32le]
  norm_num
  omega

theorem crc32Round_lt (c : Nat) (hc : c < 2 ^ 32) : crc32Round c < 2 ^ 32 := by
  unfold crc32Round CRC32_POLY
  split
  · exact Nat.xor_lt_two_pow (by omega) (by norm_num)
  · omega

theorem crc32_iterate_lt (n x : Nat) (hx : x < 2 ^ 32) :
    crc32Round^[n] x < 2 ^ 32 := by
  induction n generalizing x with
  | zero => simpa using hx
  | succ k ih =>
      rw [Function.iterate_succ_apply]
      exact ih _ (crc32Round_lt x hx)

theorem crc32Byte_lt (c b : Nat) (hc : c < 2 ^ 32) (hb : b < 256) :
    crc32Byte c b < 2 ^ 32 :=
  crc32_iterate_lt 8 _ (Nat.xor_lt_two_pow hc (by omega))

theorem crc32_foldl_lt (l : List Nat) : ∀ c : Nat, (∀ b ∈ l, b < 256) →
    c < 2 ^ 32 → l.foldl crc32Byte c < 2 ^ 32 := by
  induction l with
  | nil => intro c _ hc; simpa using hc
  | cons a t ih =>
      intro c hl hc
      simp only [List.foldl_cons]
      exact ih _ (fun b hb => hl b (List.mem_cons_of_mem _ hb))
        (crc32Byte_lt _ _ hc (hl a (List.mem_cons_self _ _)))

/-- The CRC of a byte string fits in the 4-byte checksum field. -/
theorem crc32_lt (bytes : List Nat) (hb : ∀ b ∈ bytes, b < 256) :
    crc32 bytes < 2 ^ 32 := by
  unfold crc32
  exact Nat.xor_lt_two_pow (crc32_foldl_lt bytes _ hb (by norm_num)) (by norm_num)

/-- Decoding at a position where a whole frame for payload `p` sits (followed
by arbitrary further bytes) succeeds, returns exactly `p`, and advances
`current_pos` by `10 + |p|`. -/
theorem segNext_encode (data : List Nat) (pos : Nat) (p suffix : List Nat)
    (hdrop : data.drop pos = encodeFrame p ++ suffix)
    (hlen : p.length < 2 ^ 32) (hbytes : ∀ b ∈ p, b < 256) :
    segNext data pos = .ok (some p, pos + HEADER_NUM_BYTES + p.length) := by
  have hcrc : crc32 p < 2 ^ 32 := crc32_lt p hbytes
  have hmod : p.length % 2 ^ 32 = p.length := Nat.mod_eq_of_lt hlen
  unfold segNext
  rw [hdrop]
  simp only [encodeFrame, hmod, writeU16le, writeU32le, List.cons_append,
    List.nil_append, List.length_cons, List.drop_succ_cons, List.drop_zero,
    readU16le, readU32le]
  have h1 : ¬ (p ++ suffix).length + 2 + 2 + 2 + 2 + 2 < 2 := by omega
  rw [if_neg h1]
  rw [if_neg (show ¬ (HEADER_MAGIC % 256 + 256 * (HEADER_MAGIC / 256 % 256) ≠
    HEADER_MAGIC) by decide)]
  have h2 : ¬ (p ++ suffix).length + 2 + 2 + 2 + 2 < 4 := by omega
  rw [if_neg h2]
  have h3 : ¬ (p ++ suffix).length + 2 + 2 < 4 := by omega
  rw [if_neg h3]
  have hlenfield : p.length % 256 + 256 * (p.length / 256 % 256) +
      256 ^ 2 * (p.length / 256 ^ 2 % 256) +
      256 ^ 3 * (p.length / 256 ^ 3 % 256) = p.length := by
    have h32 : (2 : Nat) ^ 32 = 256 ^ 4 := by norm_num
    rw [h32] at hlen
    norm_num at hlen ⊢
    omega
  have h4 : ¬ (p ++ suffix).length < p.length % 256 + 256 * (p.length / 256 % 256) +
      256 ^ 2 * (p.length / 256 ^ 2 % 256) + 256 ^ 3 * (p.length / 256 ^ 3 % 256) := by
    rw [hlenfield]
    simp
  rw [if_neg h4]
  have htake : (p ++ suffix).take (p.length % 256 + 256 * (p.length / 256 % 256) +
      256 ^ 2 * (p.length / 256 ^ 2 % 256) + 256 ^ 3 * (p.length / 256 ^ 3 % 256)) = p := by
    rw [hlenfield, List.take_left]
  rw [htake]
  have hck : crc32 p % 256 + 256 * (crc32 p / 256 % 256) +
      256 ^ 2 * (crc32 p / 256 ^ 2 % 256) + 256 ^ 3 * (crc32 p / 256 ^ 3 % 256) =
      crc32 p := by
    have h32 : (2 : Nat) ^ 32 = 256 ^ 4 := by norm_num
    rw [h32] at hcrc
    norm_num at hcrc ⊢
    omega
  rw [if_neg (by rw [hck]; exact fun h => (h rfl).elim), hlenfield]


/-- C2: for every payload of length below `2 ^ 32`, the frame is magic, CRC-32
of the payload, payload length, then the payload bytes, all little-endian with
the CRC over the payload only; its size is `10 + |P|`; and `SegmentReader::next`
on the flushed output of `SegmentWriter::append` returns exactly the payload
and advances `current_pos` by `10 + |P|`. -/
theorem c2_codec_roundtrip (p : List Nat) (hlen : p.length < 2 ^ 32)
    (hbytes : ∀ b ∈ p, b < 256) :
    encodeFrame p =
      writeU16le HEADER_MAGIC ++ writeU32le (crc32 p) ++ writeU32le p.length ++ p ∧
    (encodeFrame p).length = HEADER_NUM_BYTES + p.length ∧
    segNext ((SegmentWriter.create 0).append p).1.flush.fileData 0 =
      .ok (some p, HEADER_NUM_BYTES + p.length) := by
  have hmod : p.length % 2 ^ 32 = p.length := Nat.mod_eq_of_lt hlen
  refine ⟨by rw [encodeFrame, hmod], ?_, ?_⟩
  · simp [encodeFrame, writeU16le, writeU32le, HEADER_NUM_BYTES]
    omega
  · have hfile : ((SegmentWriter.create 0).append p).1.flush.fileData =
        encodeFrame p := by
      simp [SegmentWriter.create, SegmentWriter.append, SegmentWriter.flush,
        SegmentWriter.fileData]
    rw [hfile]
    have := segNext_encode (encodeFrame p) 0 p [] (by simp) hlen hbytes
    simpa using this

/-- C2 witness: the round trip evaluated on the two-byte payload `Hi`. -/
theorem c2_codec_roundtrip_witness :
    encodeFrame [72, 105] =
      writeU16le HEADER_MAGIC ++ writeU32le (crc32 [72, 105]) ++
        writeU32le ([72, 105] : List Nat).length ++ [72, 105] ∧
    (encodeFrame [72, 105]).length = HEADER_NUM_BYTES + ([72, 105] : List Nat).length ∧
    segNext ((SegmentWriter.create 0).append [72, 105]).1.flush.fileData 0 =
      .ok (some [72, 105], HEADER_NUM_BYTES + ([72, 105] : List Nat).length) :=
  c2_codec_roundtrip [72, 105] (by decide) (by decide)

/-- C6 counterexample: with exactly one byte remaining before the magic (an
end of file that splits the frame header), `SegmentReader::next` returns a
clean `None` instead of the `CorruptionError` the claim requires: the
two-byte magic read hits `UnexpectedEof`, which the source maps to `Ok(None)`
whether zero or one byte remains. -/
theorem c6_counterexample :
    segNext [57] 0 = .ok (none, 0) ∧
    ∀ e : WalError, segNext [57] 0 ≠ .error e := by
  refine ⟨rfl, ?_⟩
  intro e h
  rw [show segNext [57] 0 = .ok (none, 0) from rfl] at h
  exact Except.noConfusion h

/-- C6 (amended): `next` returns `None` exactly when fewer than 2 bytes
remain before the magic (zero bytes: clean end of file; one byte: an
end-of-file splitting the magic is also reported as `None`); two available
bytes differing from the magic fail with the ReadError bail; a valid magic
followed by a header truncated before byte 10 fails with the propagated
`UnexpectedEof`; and a stored checksum differing from the recomputed CRC-32
fails with the CorruptionError bail. -/
theorem c6_next_error_cases_amended (data : List Nat) (pos : Nat) :
    ((data.drop pos).length < 2 → segNext data pos = .ok (none, pos)) ∧
    (∀ q, segNext data pos = .ok (none, q) → (data.drop pos).length < 2) ∧
    (2 ≤ (data.drop pos).length → readU16le (data.drop pos) ≠ HEADER_MAGIC →
      segNext data pos = .error .readError) ∧
    (2 ≤ (data.drop pos).length → readU16le (data.drop pos) = HEADER_MAGIC →
      (data.drop pos).length < HEADER_NUM_BYTES →
      segNext data pos = .error .unexpectedEof) ∧
    (HEADER_NUM_BYTES ≤ (data.drop pos).length →
      readU16le (data.drop pos) = HEADER_MAGIC →
      readU32le ((data.drop pos).drop 6) ≤ (data.drop pos).length - HEADER_NUM_BYTES →
      readU32le ((data.drop pos).drop 2) ≠
        crc32 (((data.drop pos).drop 10).take (readU32le ((data.drop pos).drop 6))) →
      segNext data pos = .error .corruptionError) := by
  refine ⟨?_, ?_, ?_, ?_, ?_⟩
  · intro h
    simp only [segNext]
    rw [if_pos h]
  · intro q h
    by_contra hlen2
    push_neg at hlen2
    simp only [segNext] at h
    rw [if_neg (by omega)] at h
    split_ifs at h
    all_goals simp_all
  · intro h2 hm
    simp only [segNext]
    rw [if_neg (by omega), if_pos hm]
  · intro h2 hm hlt
    rw [HEADER_NUM_BYTES] at hlt
    simp only [segNext]
    generalize hg : List.drop pos data = rem at h2 hm hlt ⊢
    rw [if_neg (by omega), if_neg (not_not_intro hm)]
    rcases Nat.lt_or_ge rem.length 6 with h6 | h6
    · rw [if_pos (by simp only [List.length_drop]; omega)]
    · rw [if_neg (by simp only [List.length_drop]; omega),
        if_pos (by simp only [List.length_drop, List.drop_drop]; omega)]
  · intro h10 hm hlen hcrc
    rw [HEADER_NUM_BYTES] at h10 hlen
    simp only [segNext]
    generalize hg : List.drop pos data = rem at h10 hm hlen hcrc ⊢
    rw [if_neg (by omega), if_neg (not_not_intro hm),
      if_neg (by simp only [List.length_drop]; omega),
      if_neg (by simp only [List.length_drop, List.drop_drop]; omega)]
    have h6 : List.drop 4 (List.drop 2 rem) = List.drop 6 rem := by
      rw [List.drop_drop]
    have h106 : List.drop 4 (List.drop 6 rem) = List.drop 10 rem := by
      rw [List.drop_drop]
    rw [h6, h106]
    rw [if_neg (by simp only [List.length_drop]; omega), if_pos hcrc]

/-- C6 witness: the four outcomes evaluated on concrete byte strings: a lone
byte, a wrong magic, a truncated header after a valid magic, and a frame whose
last payload byte was flipped. -/
theorem c6_next_error_cases_amended_witness :
    segNext [57] 0 = .ok (none, 0) ∧
    segNext [0, 0] 0 = .error .readError ∧
    segNext [57, 5, 1] 0 = .error .unexpectedEof ∧
    segNext [57, 5, 14, 14, 23, 77, 2, 0, 0, 0, 72, 106] 0 =
      .error .corruptionError :=
  ⟨(c6_next_error_cases_amended [57] 0).1 (by decide),
    (c6_next_error_cases_amended [0, 0] 0).2.2.1 (by decide) (by decide),
    (c6_next_error_cases_amended [57, 5, 1] 0).2.2.2.1 (by decide) (by decide)
      (by decide),
    (c6_next_error_cases_amended [57, 5, 14, 14, 23, 77, 2, 0, 0, 0, 72, 106]
      0).2.2.2.2 (by decide) (by decide) (by decide) (by decide)⟩

/-- C10: when the target offset lies in `[base, base + smax)` but fewer than
2 bytes of the file remain at the target position, `SegmentReader::seek`
succeeds without any magic validation and just sets
`current_pos = offset - base`; in particular seeking to the exact end of the
segment file succeeds, and a `next` there returns `None`. -/
theorem c10_seek_boundary (smax : Nat) (sr : SegmentReader) (offset : Nat)
    (h1 : sr.base_offset ≤ offset) (h2 : offset < sr.base_offset + smax)
    (h3 : (sr.data.drop (offset - sr.base_offset)).length < 2) :
    segSeek smax sr offset = .ok { sr with current_pos := offset - sr.base_offset } ∧
    (offset = sr.base_offset + sr.data.length →
      segNext sr.data (offset - sr.base_offset) =
        .ok (none, offset - sr.base_offset)) := by
  constructor
  · simp only [segSeek]
    rw [if_neg (by omega), if_neg (by omega)]
  · intro htop
    simp only [segNext]
    rw [if_pos h3]

/-- C10 witness: seeking a two-frame segment (base 100) to its top offset and
reading there. -/
theorem c10_seek_boundary_witness :
    segSeek 64 ⟨100, [57, 5, 14, 14, 23, 77, 2, 0, 0, 0, 72, 105], 0⟩ 112 =
      .ok ⟨100, [57, 5, 14, 14, 23, 77, 2, 0, 0, 0, 72, 105], 12⟩ ∧
    segNext [57, 5, 14, 14, 23, 77, 2, 0, 0, 0, 72, 105] 12 = .ok (none, 12) := by
  have h := c10_seek_boundary 64 ⟨100, [57, 5, 14, 14, 23, 77, 2, 0, 0, 0, 72, 105], 0⟩
    112 (by decide) (by decide) (by decide)
  exact ⟨h.1, h.2 (by decide)⟩


theorem insertSeg_perm (s : Segment) (l : List Segment) :
    List.Perm (insertSeg s l) (s :: l) := by
  induction l with
  | nil => simp [insertSeg]
  | cons t ts ih =>
      simp only [insertSeg]
      split
      · exact List.Perm.refl _
      · exact ((ih.cons t).trans (List.Perm.swap s t ts))

theorem sortSegs_perm (l : List Segment) : List.Perm (sortSegs l) l := by
  induction l with
  | nil => exact List.Perm.refl _
  | cons t ts ih =>
      simpa [sortSegs] using ((insertSeg_perm t (sortSegs ts)).trans (ih.cons t))

theorem insertSeg_sorted (s : Segment) : ∀ l : List Segment,
    l.Sorted (fun a b => a.base_offset ≤ b.base_offset) →
    (insertSeg s l).Sorted (fun a b => a.base_offset ≤ b.base_offset) := by
  intro l
  induction l with
  | nil => intro _; simp [insertSeg]
  | cons t ts ih =>
      intro hl
      rcases List.sorted_cons.mp hl with ⟨hhead, hts⟩
      simp only [insertSeg]
      split
      · rename_i hst
        refine List.sorted_cons.mpr ⟨?_, hl⟩
        intro b hb
        rcases List.mem_cons.mp hb with h | h
        · subst h; exact hst
        · exact le_trans hst (hhead b h)
      · rename_i hst
        refine List.sorted_cons.mpr ⟨?_, ih hts⟩
        intro b hb
        have hb2 := (insertSeg_perm s ts).mem_iff.mp hb
        rcases List.mem_cons.mp hb2 with h | h
        · subst h; omega
        · exact hhead b h

theorem sortSegs_sorted (l : List Segment) :
    (sortSegs l).Sorted (fun a b => a.base_offset ≤ b.base_offset) := by
  induction l with
  | nil => simp [sortSegs]
  | cons t ts ih => exact insertSeg_sorted t (sortSegs ts) ih

/-- The contiguity check, in relational form. -/
theorem checkContiguous_iff (l : List Segment) :
    checkContiguous l = true ↔
      List.Chain' (fun a b => a.top_offset = b.base_offset) l := by
  induction l with
  | nil => simp [checkContiguous]
  | cons a t ih =>
      cases t with
      | nil => simp [checkContiguous]
      | cons b u =>
          simp only [checkContiguous, Bool.and_eq_true, beq_iff_eq, ih,
            List.chain'_cons]

/-- Every segment record of a directory satisfies base ≤ top, and tops encode
file sizes. -/
theorem segmentsOfDir_mem (dir : List DirFile) (s : Segment)
    (hs : s ∈ segmentsOfDir dir) :
    ∃ f ∈ dir, s.base_offset = f.1 ∧ s.top_offset = f.1 + f.2.length := by
  have hmem := (sortSegs_perm _).mem_iff.mp hs
  rcases List.mem_map.mp hmem with ⟨f, hf, he⟩
  exact ⟨f, hf, by rw [← he], by rw [← he]⟩

theorem chain_top_le : ∀ (l : List Segment) (a : Segment),
    List.Chain' (fun x y => x.top_offset = y.base_offset) (a :: l) →
    (∀ s ∈ a :: l, s.base_offset ≤ s.top_offset) →
    ∀ s ∈ a :: l, a.top_offset ≤ s.top_offset := by
  intro l
  induction l with
  | nil =>
      intro a _ _ s hs
      rcases List.mem_cons.mp hs with h | h
      · subst h; exact le_refl _
      · cases h
  | cons b u ih =>
      intro a hch hbt s hs
      rcases List.mem_cons.mp hs with h | h
      · subst h; exact le_refl _
      · rcases List.chain'_cons.mp hch with ⟨hab, hch2⟩
        have hb := ih b hch2 (fun t ht => hbt t (List.mem_cons_of_mem _ ht)) s h
        have hbb : b.base_offset ≤ b.top_offset := hbt b (by simp)
        omega

/-- A segment that survives the ascending take-while deletion has
`top_offset` above the truncation offset. -/
theorem not_takeWhile_top (k : Nat) : ∀ l : List Segment,
    List.Chain' (fun x y => x.top_offset = y.base_offset) l →
    (∀ s ∈ l, s.base_offset ≤ s.top_offset) →
    ∀ s ∈ l, s ∉ l.takeWhile (fun s => decide (s.top_offset ≤ k)) →
    k < s.top_offset := by
  intro l
  induction l with
  | nil => intro _ _ s hs; cases hs
  | cons a t ih =>
      intro hch hbt s hs hnt
      by_cases hp : a.top_offset ≤ k
      · simp only [List.takeWhile_cons, decide_eq_true hp, if_true] at hnt
        rcases List.mem_cons.mp hs with h | h
        · subst h; exact absurd (List.mem_cons_self _ _) hnt
        · exact ih hch.tail (fun u hu => hbt u (List.mem_cons_of_mem _ hu)) s h
            (fun hmem => hnt (List.mem_cons_of_mem _ hmem))
      · push_neg at hp
        rcases List.mem_cons.mp hs with h | h
        · subst h; exact hp
        · have := chain_top_le t a hch hbt s hs
          omega

/-- C4: truncating a contiguous WAL at offset `k` keeps exactly the files
that are the write segment (the greatest base offset, i.e. the last of the
sorted segment list) or whose `top_offset` exceeds `k`; in particular the
write segment file itself is never deleted. -/
theorem c4_truncate (dir : List DirFile) (k : Nat) (segs : List Segment)
    (hnodup : (dir.map Prod.fst).Nodup)
    (hls : list_segments dir = .ok segs) (hne : segs ≠ [])
    (dir2 : List DirFile) (ht : truncate_wal dir k = .ok dir2) :
    (∀ f ∈ dir2, f.1 = (segs.getLast hne).base_offset ∨ k < f.1 + f.2.length) ∧
    (∀ f ∈ dir, f.1 = (segs.getLast hne).base_offset → f ∈ dir2) := by
  have hsegs : segs = segmentsOfDir dir ∧ checkContiguous (segmentsOfDir dir) = true := by
    simp only [list_segments] at hls
    split at hls
    · exact ⟨((Except.ok.injEq _ _).mp hls).symm, by assumption⟩
    · exact Except.noConfusion hls
  obtain ⟨hse, hcheck⟩ := hsegs
  have hchain : List.Chain' (fun x y => x.top_offset = y.base_offset) segs := by
    rw [hse]; exact (checkContiguous_iff _).mp hcheck
  have hbt : ∀ s ∈ segs, s.base_offset ≤ s.top_offset := by
    intro s hs
    rw [hse] at hs
    rcases segmentsOfDir_mem dir s hs with ⟨f, _, hb, htp⟩
    omega
  have hdir2 : dir2 = dir.filter fun f =>
      ! ((segs.dropLast.takeWhile fun s => decide (s.top_offset ≤ k)).map
          Segment.base_offset).contains f.1 := by
    unfold truncate_wal at ht
    rw [hls] at ht
    exact (Except.ok.inj ht).symm
  have hmemseg : ∀ f ∈ dir, (⟨f.1, f.1 + f.2.length⟩ : Segment) ∈ segs := by
    intro f hf
    rw [hse]
    exact (sortSegs_perm _).mem_iff.mpr (List.mem_map.mpr ⟨f, hf, rfl⟩)
  have hchainDL : List.Chain' (fun x y => x.top_offset = y.base_offset)
      segs.dropLast := hchain.prefix (List.dropLast_prefix segs)
  have hbtDL : ∀ s ∈ segs.dropLast, s.base_offset ≤ s.top_offset :=
    fun s hs => hbt s (List.dropLast_subset segs hs)
  have hdecomp : segs.dropLast ++ [segs.getLast hne] = segs :=
    List.dropLast_append_getLast hne
  constructor
  · intro f hf
    rw [hdir2] at hf
    rcases List.mem_filter.mp hf with ⟨hfd, hpred⟩
    have hsf := hmemseg f hfd
    rw [← hdecomp] at hsf
    rcases List.mem_append.mp hsf with hsf | hsf
    · right
      have hnotdel : (⟨f.1, f.1 + f.2.length⟩ : Segment) ∉
          segs.dropLast.takeWhile fun s => decide (s.top_offset ≤ k) := by
        intro hmem
        have hmm : f.1 ∈ ((segs.dropLast.takeWhile fun s =>
            decide (s.top_offset ≤ k)).map Segment.base_offset) :=
          List.mem_map.mpr ⟨_, hmem, rfl⟩
        rw [Bool.not_eq_true'] at hpred
        have hfalse : ((segs.dropLast.takeWhile fun s =>
            decide (s.top_offset ≤ k)).map Segment.base_offset).contains f.1 = true :=
          List.elem_iff.mpr hmm
        rw [hpred] at hfalse
        exact Bool.noConfusion hfalse
      exact not_takeWhile_top k segs.dropLast hchainDL hbtDL _ hsf hnotdel
    · left
      rw [← List.mem_singleton.mp hsf]
  · intro f hf hbase
    rw [hdir2]
    refine List.mem_filter.mpr ⟨hf, ?_⟩
    rw [Bool.not_eq_true']
    refine Bool.eq_false_iff.mpr fun hcb => ?_
    have hcontra := List.elem_iff.mp hcb
    rcases List.mem_map.mp hcontra with ⟨s, hsmem, hsbase⟩
    have hsDL : s ∈ segs.dropLast := (List.takeWhile_prefix _).subset hsmem
    have hbasesN : (segs.map Segment.base_offset).Nodup := by
      have hperm : List.Perm (segs.map Segment.base_offset) (dir.map Prod.fst) := by
        rw [hse]
        have h1 := (sortSegs_perm (dir.map fun f => ⟨f.1, f.1 + f.2.length⟩)).map
          Segment.base_offset
        simpa [Function.comp] using h1
      exact hperm.nodup_iff.mpr hnodup
    have hseq : s = segs.getLast hne := by
      have hinj := List.inj_on_of_nodup_map hbasesN
      exact hinj (List.dropLast_subset segs hsDL) (List.getLast_mem hne)
        (by rw [hsbase, hbase])
    have hNodup : segs.Nodup := hbasesN.of_map
    have : segs.getLast hne ∉ segs.dropLast := by
      intro hmem
      rw [← hdecomp] at hNodup
      rcases List.nodup_append.mp hNodup with ⟨_, _, hdisj⟩
      exact hdisj hmem (List.mem_singleton_self _)
    exact this (hseq ▸ hsDL)

/-- C4 witness: the segment layout 0..12, 12..26, 26..38 truncated at 38
keeps exactly the write segment (base 26). -/
theorem c4_truncate_witness :
    (∀ f ∈ [((26 : Nat), List.replicate 12 (0 : Nat))],
      f.1 = (([⟨0, 12⟩, ⟨12, 26⟩, ⟨26, 38⟩] : List Segment).getLast
        (by decide)).base_offset ∨ 38 < f.1 + f.2.length) ∧
    (∀ f ∈ [((0 : Nat), List.replicate 12 (0 : Nat)),
        (12, List.replicate 14 0), (26, List.replicate 12 0)],
      f.1 = (([⟨0, 12⟩, ⟨12, 26⟩, ⟨26, 38⟩] : List Segment).getLast
        (by decide)).base_offset →
      f ∈ [((26 : Nat), List.replicate 12 (0 : Nat))]) :=
  c4_truncate
    [(0, List.replicate 12 0), (12, List.replicate 14 0), (26, List.replicate 12 0)]
    38 [⟨0, 12⟩, ⟨12, 26⟩, ⟨26, 38⟩] (by decide) rfl (by decide)
    [(26, List.replicate 12 0)] rfl


theorem ok_bind {α β : Type} (x : α) (f : α → Except WalError β) :
    ((Except.ok x : Except WalError α) >>= f) = f x := rfl

theorem takeWhile_getD_true {α : Type} (p : α → Bool) (d : α) :
    ∀ (l : List α) (j : Nat), j < (l.takeWhile p).length →
      p (l.getD j d) = true := by
  intro l
  induction l with
  | nil => intro j hj; simp [List.takeWhile] at hj
  | cons a t ih =>
      intro j hj
      by_cases hp : p a
      · rw [List.takeWhile_cons, if_pos hp] at hj
        cases j with
        | zero => simpa using hp
        | succ m =>
            simp only [List.length_cons, Nat.succ_lt_succ_iff] at hj
            simpa using ih m hj
      · rw [List.takeWhile_cons, if_neg hp] at hj
        simp at hj

theorem takeWhile_length_false {α : Type} (p : α → Bool) (d : α) :
    ∀ l : List α, (l.takeWhile p).length < l.length →
      p (l.getD (l.takeWhile p).length d) = false := by
  intro l
  induction l with
  | nil => intro h; simp at h
  | cons a t ih =>
      intro h
      by_cases hp : p a
      · rw [List.takeWhile_cons, if_pos hp] at h ⊢
        simp only [List.length_cons, Nat.succ_lt_succ_iff] at h
        simpa using ih h
      · rw [List.takeWhile_cons, if_neg hp]
        simpa using hp

/-- C5: `Reader::seek(offset)` is a no-op at the current offset; otherwise it
fails on an empty directory and on offsets outside
`[segments.head.base_offset, segments.last.top_offset]`; otherwise it opens a
segment reader on the segment at index `i`, where `i` is the smallest index
whose `top_offset` exceeds `offset` (every earlier index has
`top_offset ≤ offset`) clamped to the last index, and seeks that segment
reader to `offset`. -/
theorem c5_reader_seek (smax : Nat) (r : Reader) (offset : Nat)
    (segs : List Segment) :
    (r.current_offset = offset → Reader.seek smax r offset = .ok r) ∧
    (r.current_offset ≠ offset → list_segments r.dir = .ok [] →
      Reader.seek smax r offset = .error .noSegments) ∧
    (r.current_offset ≠ offset → list_segments r.dir = .ok segs → segs ≠ [] →
      (offset < (segs.headD ⟨0, 0⟩).base_offset ∨
        (segs.getLastD ⟨0, 0⟩).top_offset < offset) →
      Reader.seek smax r offset = .error .seekError) ∧
    (r.current_offset ≠ offset → list_segments r.dir = .ok segs → segs ≠ [] →
      (segs.headD ⟨0, 0⟩).base_offset ≤ offset →
      offset ≤ (segs.getLastD ⟨0, 0⟩).top_offset →
      min (segs.takeWhile fun s => decide (s.top_offset ≤ offset)).length
          (segs.length - 1) < segs.length ∧
      (∀ j < min (segs.takeWhile fun s => decide (s.top_offset ≤ offset)).length
          (segs.length - 1), (segs.getD j ⟨0, 0⟩).top_offset ≤ offset) ∧
      (min (segs.takeWhile fun s => decide (s.top_offset ≤ offset)).length
          (segs.length - 1) = segs.length - 1 ∨
        offset < (segs.getD (min (segs.takeWhile fun s =>
          decide (s.top_offset ≤ offset)).length (segs.length - 1)) ⟨0, 0⟩).top_offset) ∧
      Reader.seek smax r offset = (do
        let sr ← openSegment r.dir ((segs.getD (min (segs.takeWhile fun s =>
          decide (s.top_offset ≤ offset)).length (segs.length - 1)) ⟨0, 0⟩).base_offset)
        let sr2 ← segSeek smax sr offset
        .ok ⟨r.dir, sr2⟩)) := by
  refine ⟨?_, ?_, ?_, ?_⟩
  · intro he
    unfold Reader.seek
    rw [if_pos he]
  · intro hno hls
    unfold Reader.seek
    rw [if_neg hno, hls]
    rfl
  · intro hno hls hne hrange
    unfold Reader.seek
    rw [if_neg hno, hls]
    simp only [ok_bind]
    rw [if_neg (by simp [List.isEmpty_iff, hne]), if_pos hrange]
  · intro hno hls hne hmin hmax
    have hlpos : 0 < segs.length := List.length_pos.mpr hne
    refine ⟨by omega, ?_, ?_, ?_⟩
    · intro j hj
      have hj2 : j < (segs.takeWhile fun s => decide (s.top_offset ≤ offset)).length := by
        omega
      have := takeWhile_getD_true (fun s => decide (s.top_offset ≤ offset))
        ⟨0, 0⟩ segs j hj2
      exact of_decide_eq_true this
    · set t := (segs.takeWhile fun s => decide (s.top_offset ≤ offset)).length with htdef
      by_cases hcl : segs.length - 1 ≤ t
      · left; omega
      · right
        have hmin2 : min t (segs.length - 1) = t := by omega
        rw [hmin2]
        have := takeWhile_length_false (fun s => decide (s.top_offset ≤ offset))
          ⟨0, 0⟩ segs (by omega)
        rw [← htdef] at this
        have h2 := of_decide_eq_false this
        omega
    · unfold Reader.seek
      rw [if_neg hno, hls]
      simp only [ok_bind]
      rw [if_neg (by simp [List.isEmpty_iff, hne]),
        if_neg (by push_neg; exact ⟨hmin, hmax⟩)]

/-- C5 witness: on the directory with segments 0..3 and 3..5, a seek at the
current offset is a no-op, and a seek to offset 3 picks the (clamped) last
segment and seeks it. -/
theorem c5_reader_seek_witness :
    (Reader.seek 64 ⟨[(0, [1, 1, 1]), (3, [57, 5])], ⟨0, [1, 1, 1], 0⟩⟩ 0 =
      .ok ⟨[(0, [1, 1, 1]), (3, [57, 5])], ⟨0, [1, 1, 1], 0⟩⟩) ∧
    (min (([⟨0, 3⟩, ⟨3, 5⟩] : List Segment).takeWhile fun s =>
        decide (s.top_offset ≤ 3)).length
        (([⟨0, 3⟩, ⟨3, 5⟩] : List Segment).length - 1) <
      ([⟨0, 3⟩, ⟨3, 5⟩] : List Segment).length ∧
      (∀ j < min (([⟨0, 3⟩, ⟨3, 5⟩] : List Segment).takeWhile fun s =>
          decide (s.top_offset ≤ 3)).length
          (([⟨0, 3⟩, ⟨3, 5⟩] : List Segment).length - 1),
        (([⟨0, 3⟩, ⟨3, 5⟩] : List Segment).getD j ⟨0, 0⟩).top_offset ≤ 3) ∧
      (min (([⟨0, 3⟩, ⟨3, 5⟩] : List Segment).takeWhile fun s =>
          decide (s.top_offset ≤ 3)).length
          (([⟨0, 3⟩, ⟨3, 5⟩] : List Segment).length - 1) =
          ([⟨0, 3⟩, ⟨3, 5⟩] : List Segment).length - 1 ∨
        3 < (([⟨0, 3⟩, ⟨3, 5⟩] : List Segment).getD
          (min (([⟨0, 3⟩, ⟨3, 5⟩] : List Segment).takeWhile fun s =>
            decide (s.top_offset ≤ 3)).length
            (([⟨0, 3⟩, ⟨3, 5⟩] : List Segment).length - 1)) ⟨0, 0⟩).top_offset) ∧
      Reader.seek 64 ⟨[(0, [1, 1, 1]), (3, [57, 5])], ⟨0, [1, 1, 1], 0⟩⟩ 3 = (do
        let sr ← openSegment [(0, [1, 1, 1]), (3, [57, 5])]
          ((([⟨0, 3⟩, ⟨3, 5⟩] : List Segment).getD
            (min (([⟨0, 3⟩, ⟨3, 5⟩] : List Segment).takeWhile fun s =>
              decide (s.top_offset ≤ 3)).length
              (([⟨0, 3⟩, ⟨3, 5⟩] : List Segment).length - 1)) ⟨0, 0⟩).base_offset)
        let sr2 ← segSeek 64 sr 3
        .ok ⟨[(0, [1, 1, 1]), (3, [57, 5])], sr2⟩)) :=
  ⟨(c5_reader_seek 64 ⟨[(0, [1, 1, 1]), (3, [57, 5])], ⟨0, [1, 1, 1], 0⟩⟩ 0 []).1 rfl,
    (c5_reader_seek 64 ⟨[(0, [1, 1, 1]), (3, [57, 5])], ⟨0, [1, 1, 1], 0⟩⟩ 3
      [⟨0, 3⟩, ⟨3, 5⟩]).2.2.2 (by decide) rfl (by decide) (by decide) (by decide)⟩

theorem framesBytes_append (a b : List (List Nat)) :
    framesBytes (a ++ b) = framesBytes a ++ framesBytes b := by
  simp [framesBytes]

theorem framesBytes_cons (f : List Nat) (fs : List (List Nat)) :
    framesBytes (f :: fs) = encodeFrame f ++ framesBytes fs := by
  simp [framesBytes]

theorem framesBytes_singleton (p : List Nat) : framesBytes [p] = encodeFrame p := by
  simp [framesBytes]

theorem encodeFrame_length (p : List Nat) :
    (encodeFrame p).length = HEADER_NUM_BYTES + p.length := by
  simp [encodeFrame, writeU16le, writeU32le, HEADER_NUM_BYTES]
  omega

theorem frameStartsOk_nil (smax : Nat) : frameStartsOk smax [] := by
  intro i hi
  simp at hi

theorem frameStartsOk_singleton (smax : Nat) (hs : 0 < smax) (p : List Nat) :
    frameStartsOk smax [p] := by
  intro i hi
  simp only [List.length_singleton, Nat.lt_one_iff] at hi
  subst hi
  simpa [framesBytes] using hs

theorem payloadsOk_nil : payloadsOk [] := by
  intro p hp
  cases hp

theorem chain_extend (smax : Nat) : ∀ (M : List (Nat × List (List Nat)))
    (b0 b : Nat) (fs gs : List (List Nat)),
    chain smax b0 (M ++ [(b, fs)]) → smax ≤ (framesBytes fs).length →
    frameStartsOk smax gs → payloadsOk gs →
    chain smax b0 ((M ++ [(b, fs)]) ++ [(b + (framesBytes fs).length, gs)]) := by
  intro M
  induction M with
  | nil =>
      intro b0 b fs gs hch hsz hg hpg
      obtain ⟨hb, hf, hp, _, _⟩ := hch
      exact ⟨hb, hf, hp, fun _ => hsz,
        rfl, hg, hpg, fun h => absurd rfl h, trivial⟩
  | cons x M2 ih =>
      intro b0 b fs gs hch hsz hg hpg
      obtain ⟨xb, xfs⟩ := x
      obtain ⟨hb, hf, hp, hne, hrest⟩ := hch
      exact ⟨hb, hf, hp, fun _ => hne (by simp), ih _ _ _ _ hrest hsz hg hpg⟩

theorem chain_replace_last (smax : Nat) : ∀ (M : List (Nat × List (List Nat)))
    (b0 b : Nat) (fs gs : List (List Nat)),
    chain smax b0 (M ++ [(b, fs)]) → frameStartsOk smax gs → payloadsOk gs →
    chain smax b0 (M ++ [(b, gs)]) := by
  intro M
  induction M with
  | nil =>
      intro b0 b fs gs hch hg hpg
      obtain ⟨hb, _, _, _, _⟩ := hch
      exact ⟨hb, hg, hpg, fun h => absurd rfl h, trivial⟩
  | cons x M2 ih =>
      intro b0 b fs gs hch hg hpg
      obtain ⟨xb, xfs⟩ := x
      obtain ⟨hb, hf, hp, hne, hrest⟩ := hch
      exact ⟨hb, hf, hp, fun _ => hne (by simp), ih _ _ _ _ hrest hg hpg⟩

theorem chain_last_facts (smax : Nat) : ∀ (M : List (Nat × List (List Nat)))
    (b0 b : Nat) (fs : List (List Nat)),
    chain smax b0 (M ++ [(b, fs)]) →
    frameStartsOk smax fs ∧ payloadsOk fs := by
  intro M
  induction M with
  | nil =>
      intro b0 b fs hch
      exact ⟨hch.2.1, hch.2.2.1⟩
  | cons x M2 ih =>
      intro b0 b fs hch
      obtain ⟨xb, xfs⟩ := x
      exact ih _ _ _ hch.2.2.2.2

theorem chain_all_startsOk (smax : Nat) : ∀ (M : List (Nat × List (List Nat)))
    (b0 : Nat), chain smax b0 M →
    ∀ s ∈ M, frameStartsOk smax s.2 ∧ payloadsOk s.2 := by
  intro M
  induction M with
  | nil => intro b0 _ s hs; cases hs
  | cons x M2 ih =>
      intro b0 hch s hs
      obtain ⟨xb, xfs⟩ := x
      obtain ⟨hb, hf, hp, hne, hrest⟩ := hch
      rcases List.mem_cons.mp hs with h | h
      · subst h; exact ⟨hf, hp⟩
      · exact ih _ hrest s h

theorem WInv_init (smax : Nat) : WInv smax Writer.openEmpty [] :=
  ⟨[], [], rfl, rfl,
    ⟨rfl, frameStartsOk_nil smax, payloadsOk_nil, fun h => absurd rfl h, trivial⟩,
    fun _ => rfl, rfl⟩

theorem WInv_append (smax : Nat) (hs : 0 < smax) (w : Writer)
    (ps : List (List Nat)) (p : List Nat)
    (hp : p.length < 2 ^ 32 ∧ ∀ b ∈ p, b < 256)
    (hi : WInv smax w ps) : WInv smax (Writer.append smax w p) (ps ++ [p]) := by
  obtain ⟨L, afr, hsealed, hdata, hchain, hemp, hps⟩ := hi
  by_cases hro : smax ≤ w.active.num_bytes
  · refine ⟨L ++ [(w.active.base_offset, afr)], [p], ?_, ?_, ?_, ?_, ?_⟩
    · simp only [Writer.append, if_pos hro, SegmentWriter.append,
        SegmentWriter.flush, SegmentWriter.create, List.map_append,
        List.map_cons, List.map_nil]
      rw [hsealed, hdata]
    · simp only [Writer.append, if_pos hro, SegmentWriter.append,
        SegmentWriter.create, framesBytes_singleton]
      rfl
    · have hco : (Writer.append smax w p).active.base_offset =
          w.active.base_offset + (framesBytes afr).length := by
        simp only [Writer.append, if_pos hro, SegmentWriter.append,
          SegmentWriter.create, SegmentWriter.current_offset]
        rw [hdata]
      rw [hco]
      exact chain_extend smax L 0 w.active.base_offset afr [p] hchain
        (by rw [← hdata]; exact hro) (frameStartsOk_singleton smax hs p)
        (by intro q hq; rw [List.mem_singleton.mp hq]; exact hp)
    · intro h; cases h
    · simp only [List.map_append, List.flatten_append, List.map_cons,
        List.map_nil, List.flatten_cons, List.flatten_nil]
      rw [hps, List.append_nil, List.append_assoc]
  · refine ⟨L, afr ++ [p], ?_, ?_, ?_, ?_, ?_⟩
    · simpa [Writer.append, if_neg hro] using hsealed
    · simp only [Writer.append, if_neg hro, SegmentWriter.append]
      rw [hdata, framesBytes_append, framesBytes_singleton]
    · have hbase : (Writer.append smax w p).active.base_offset =
          w.active.base_offset := by
        simp [Writer.append, if_neg hro, SegmentWriter.append]
      rw [hbase]
      have hlt : (framesBytes afr).length < smax := by
        rw [← hdata]
        exact Nat.lt_of_not_le hro
      have hstarts : frameStartsOk smax (afr ++ [p]) := by
        intro i hi
        rcases Nat.lt_or_ge i afr.length with h | h
        · rw [List.take_append_of_le_length (le_of_lt h)]
          exact (chain_last_facts smax L 0 _ _ hchain).1 i h
        · have hieq : i = afr.length := by
            simp only [List.length_append, List.length_singleton] at hi
            omega
          subst hieq
          rw [List.take_append_of_le_length (le_refl _), List.take_length]
          exact hlt
      have hpo : payloadsOk (afr ++ [p]) := by
        intro q hq
        rcases List.mem_append.mp hq with h | h
        · exact (chain_last_facts smax L 0 _ _ hchain).2 q h
        · rw [List.mem_singleton.mp h]; exact hp
      exact chain_replace_last smax L 0 _ afr (afr ++ [p]) hchain hstarts hpo
    · intro h
      exact absurd h (by simp)
    · rw [hps, List.append_assoc]

theorem WInv_flush (smax : Nat) (w : Writer) (ps : List (List Nat))
    (hi : WInv smax w ps) : WInv smax (Writer.flush w) ps := by
  obtain ⟨L, afr, hsealed, hdata, hchain, hemp, hps⟩ := hi
  exact ⟨L, afr, hsealed, hdata, hchain, hemp, hps⟩

/-- Every writer state reachable from an empty directory by appends and
flushes satisfies the layout invariant. -/
theorem walAfter_inv (smax : Nat) (hs : 0 < smax) (ops : List WalOp)
    (hok : ∀ p ∈ opsPayloads ops, p.length < 2 ^ 32 ∧ ∀ b ∈ p, b < 256) :
    WInv smax (walAfter smax ops) (opsPayloads ops) := by
  induction ops using List.list_reverse_induction with
  | base => exact WInv_init smax
  | ind ops op ih =>
      have hops : walAfter smax (ops ++ [op]) =
          Writer.applyOp smax (walAfter smax ops) op := by
        unfold walAfter
        rw [List.foldl_append]
        rfl
      have hok2 : ∀ p ∈ opsPayloads ops, p.length < 2 ^ 32 ∧ ∀ b ∈ p, b < 256 := by
        intro p hp
        refine hok p ?_
        unfold opsPayloads at hp ⊢
        rw [List.filterMap_append]
        exact List.mem_append_left _ hp
      have hihv := ih hok2
      cases op with
      | append p =>
          have hpl : opsPayloads (ops ++ [WalOp.append p]) =
              opsPayloads ops ++ [p] := by
            unfold opsPayloads
            rw [List.filterMap_append]
            rfl
          rw [hops, hpl]
          exact WInv_append smax hs _ _ p
            (hok p (by rw [hpl]; exact List.mem_append_right _ (by simp)))
            hihv
      | flush =>
          have hpl : opsPayloads (ops ++ [WalOp.flush]) = opsPayloads ops := by
            unfold opsPayloads
            rw [List.filterMap_append]
            simp
          rw [hops, hpl]
          exact WInv_flush smax _ _ hihv

/-- C3: `Writer::append(P)` tests the rollover condition before writing.
When the active segment already holds at least `SEGMENT_MAX_NUM_BYTES`, the
old segment is flushed and sealed, the new segment is based at the old writer
current offset, and the whole frame of `P` lands in the new segment;
otherwise the frame is appended to the unchanged active segment. On every
reachable state each segment is a concatenation of whole frames (no record is
split) in which every record starts below the threshold, so a segment
overruns the threshold by at most its last record. -/
theorem c3_append_rollover (smax : Nat) (w : Writer) (p : List Nat)
    (ops : List WalOp) (hs : 0 < smax)
    (hok : ∀ q ∈ opsPayloads ops, q.length < 2 ^ 32 ∧ ∀ b ∈ q, b < 256) :
    (smax ≤ w.active.num_bytes →
      (Writer.append smax w p).sealed =
        w.sealed ++ [(w.active.base_offset, w.active.flush.data)] ∧
      (Writer.append smax w p).active.base_offset = w.active.current_offset ∧
      (Writer.append smax w p).active.data = encodeFrame p) ∧
    (¬ smax ≤ w.active.num_bytes →
      (Writer.append smax w p).sealed = w.sealed ∧
      (Writer.append smax w p).active.base_offset = w.active.base_offset ∧
      (Writer.append smax w p).active.data = w.active.data ++ encodeFrame p) ∧
    (∃ (L : List (Nat × List (List Nat))) (afr : List (List Nat)),
      (walAfter smax ops).sealed = L.map (fun s => (s.1, framesBytes s.2)) ∧
      (walAfter smax ops).active.data = framesBytes afr ∧
      (∀ s ∈ L, frameStartsOk smax s.2) ∧ frameStartsOk smax afr) := by
  refine ⟨?_, ?_, ?_⟩
  · intro hro
    refine ⟨?_, ?_, ?_⟩
    · simp [Writer.append, if_pos hro, SegmentWriter.append]
    · simp [Writer.append, if_pos hro, SegmentWriter.append,
        SegmentWriter.create, SegmentWriter.current_offset]
    · simp [Writer.append, if_pos hro, SegmentWriter.append,
        SegmentWriter.create]
  · intro hro
    refine ⟨?_, ?_, ?_⟩
    · simp [Writer.append, if_neg hro]
    · simp [Writer.append, if_neg hro, SegmentWriter.append]
    · simp [Writer.append, if_neg hro, SegmentWriter.append]
  · obtain ⟨L, afr, hsealed, hdata, hchain, _, _⟩ := walAfter_inv smax hs ops hok
    refine ⟨L, afr, hsealed, hdata, ?_, ?_⟩
    · intro s hsm
      exact (chain_all_startsOk smax _ 0 hchain s (List.mem_append_left _ hsm)).1
    · exact (chain_all_startsOk smax _ 0 hchain
        ((walAfter smax ops).active.base_offset, afr)
        (List.mem_append_right _ (List.mem_singleton_self _))).1

/-- C3 witness: a writer whose active segment holds 70 bytes (threshold 64)
seals it on the next append and puts the new record at base 70. -/
theorem c3_append_rollover_witness :
    (Writer.append 64 ⟨[], ⟨0, List.replicate 70 1, 0⟩⟩ [5]).sealed =
      [(0, List.replicate 70 1)] ∧
    (Writer.append 64 ⟨[], ⟨0, List.replicate 70 1, 0⟩⟩ [5]).active.base_offset = 70 ∧
    (Writer.append 64 ⟨[], ⟨0, List.replicate 70 1, 0⟩⟩ [5]).active.data =
      encodeFrame [5] := by
  have h := (c3_append_rollover 64 ⟨[], ⟨0, List.replicate 70 1, 0⟩⟩ [5] []
    (by decide) (fun q hq => absurd hq (List.not_mem_nil q))).1 (by decide)
  refine ⟨?_, ?_, h.2.2⟩
  · rw [h.1]; rfl
  · rw [h.2.1]; rfl

theorem insertSeg_of_le (s : Segment) (l : List Segment)
    (h : ∀ x ∈ l, s.base_offset ≤ x.base_offset) : insertSeg s l = s :: l := by
  cases l with
  | nil => rfl
  | cons t ts => simp [insertSeg, h t (by simp)]

theorem sortSegs_of_sorted : ∀ l : List Segment,
    l.Sorted (fun a b => a.base_offset ≤ b.base_offset) → sortSegs l = l := by
  intro l
  induction l with
  | nil => intro _; rfl
  | cons t ts ih =>
      intro hl
      rcases List.sorted_cons.mp hl with ⟨hhead, hts⟩
      show insertSeg t (sortSegs ts) = t :: ts
      rw [ih hts]
      exact insertSeg_of_le t ts hhead

theorem chain_base_le (smax : Nat) : ∀ (M : List (Nat × List (List Nat)))
    (b0 : Nat), chain smax b0 M → ∀ s ∈ M, b0 ≤ s.1 := by
  intro M
  induction M with
  | nil => intro b0 _ s hs; cases hs
  | cons x M2 ih =>
      intro b0 hch s hs
      obtain ⟨xb, xfs⟩ := x
      obtain ⟨hb, _, _, _, hrest⟩ := hch
      rcases List.mem_cons.mp hs with h | h
      · subst h; exact le_of_eq hb.symm
      · have h2 := ih _ hrest s h
        omega

theorem layoutSegs_cons (xb : Nat) (xfs : List (List Nat))
    (L : List (Nat × List (List Nat))) (ab fsize : Nat) :
    layoutSegs ((xb, xfs) :: L) ab fsize =
      ⟨xb, xb + (framesBytes xfs).length⟩ :: layoutSegs L ab fsize := by
  simp [layoutSegs]

theorem layoutSegs_dropLast (L : List (Nat × List (List Nat))) (ab fsize : Nat) :
    (layoutSegs L ab fsize).dropLast =
      L.map fun s => ⟨s.1, s.1 + (framesBytes s.2).length⟩ := by
  simp only [layoutSegs, List.dropLast_concat]

theorem layoutSegs_base_lb (smax : Nat) :
    ∀ (L : List (Nat × List (List Nat))) (b0 ab : Nat) (afr : List (List Nat))
    (fsize : Nat), chain smax b0 (L ++ [(ab, afr)]) →
    ∀ y ∈ layoutSegs L ab fsize, b0 ≤ y.base_offset := by
  intro L b0 ab afr fsize hch y hy
  rcases List.mem_append.mp hy with h | h
  · rcases List.mem_map.mp h with ⟨z, hz, he⟩
    have := chain_base_le smax _ _ hch z (List.mem_append_left _ hz)
    rw [← he]
    exact this
  · rw [List.mem_singleton.mp h]
    exact chain_base_le smax _ _ hch (ab, afr)
      (List.mem_append_right _ (by simp))

/-- The segment records of a chained layout (with an arbitrary size for the
final, active segment) are sorted, contiguous, and every sealed one spans at
least `smax` bytes. -/
theorem chain_dir_props (smax : Nat) :
    ∀ (L : List (Nat × List (List Nat))) (b0 ab : Nat) (afr : List (List Nat))
    (fsize : Nat), chain smax b0 (L ++ [(ab, afr)]) →
    (layoutSegs L ab fsize).Sorted (fun a b => a.base_offset ≤ b.base_offset) ∧
    List.Chain' (fun x y => x.top_offset = y.base_offset)
      (layoutSegs L ab fsize) ∧
    ∀ s ∈ (layoutSegs L ab fsize).dropLast,
      smax ≤ s.top_offset - s.base_offset := by
  intro L
  induction L with
  | nil =>
      intro b0 ab afr fsize hch
      refine ⟨by simp [layoutSegs], by simp [layoutSegs], ?_⟩
      intro s hs2
      rw [layoutSegs_dropLast] at hs2
      cases hs2
  | cons x L2 ih =>
      intro b0 ab afr fsize hch
      obtain ⟨xb, xfs⟩ := x
      obtain ⟨hb, hf, hp, hne, hrest⟩ := hch
      have hsz : smax ≤ (framesBytes xfs).length := hne (by simp)
      have ihp := ih (xb + (framesBytes xfs).length) ab afr fsize hrest
      have hbases := layoutSegs_base_lb smax L2 _ ab afr fsize hrest
      rw [layoutSegs_cons]
      refine ⟨?_, ?_, ?_⟩
      · refine List.sorted_cons.mpr ⟨?_, ihp.1⟩
        intro y hy
        have := hbases y hy
        simp only []
        omega
      · refine List.chain'_cons'.mpr ⟨?_, ihp.2.1⟩
        intro y hy
        cases L2 with
        | nil =>
            simp only [layoutSegs, List.map_nil, List.nil_append,
              List.head?_cons, Option.mem_def, Option.some.injEq] at hy
            have hab : ab = xb + (framesBytes xfs).length := hrest.1
            rw [← hy]
            simp [hab]
        | cons z L3 =>
            obtain ⟨zb, zfs⟩ := z
            rw [layoutSegs_cons] at hy
            simp only [List.head?_cons, Option.mem_def, Option.some.injEq] at hy
            have hzb : zb = xb + (framesBytes xfs).length := hrest.1
            rw [← hy]
            simp [hzb]
      · have hcons : (⟨xb, xb + (framesBytes xfs).length⟩ :: layoutSegs L2 ab fsize
            : List Segment).dropLast =
            ⟨xb, xb + (framesBytes xfs).length⟩ :: (layoutSegs L2 ab fsize).dropLast := by
          have hne2 : layoutSegs L2 ab fsize ≠ [] := by
            simp [layoutSegs]
          cases hLE : layoutSegs L2 ab fsize with
          | nil => exact absurd hLE hne2
          | cons u us => simp
        rw [hcons]
        intro s hsm
        rcases List.mem_cons.mp hsm with h | h
        · subst h
          simp only []
          omega
        · exact ihp.2.2 s h

/-- C7: after any sequence of `Writer::append` and flush calls starting from
an empty directory, `list_segments` succeeds with a non-empty list, sorted
ascending by base offset, in which each top offset equals the next base
offset; every sealed (non-last) segment spans at least
`SEGMENT_MAX_NUM_BYTES` bytes, which in particular settles the claimed
disjunction; and on any directory whose sorted segment records have a gap,
`list_segments` fails with the CorruptionError bail. -/
theorem c7_list_segments_invariant (smax : Nat) (hs : 0 < smax)
    (ops : List WalOp)
    (hok : ∀ p ∈ opsPayloads ops, p.length < 2 ^ 32 ∧ ∀ b ∈ p, b < 256) :
    (∃ segs, list_segments (walAfter smax ops).dir = .ok segs ∧ segs ≠ [] ∧
      segs.Sorted (fun a b => a.base_offset ≤ b.base_offset) ∧
      List.Chain' (fun x y => x.top_offset = y.base_offset) segs ∧
      ∀ s ∈ segs.dropLast, smax ≤ s.top_offset - s.base_offset) ∧
    (∀ dir : List DirFile, checkContiguous (segmentsOfDir dir) = false →
      list_segments dir = .error .corruptionError) := by
  constructor
  · obtain ⟨L, afr, hsealed, hdata, hchain, hemp, hps⟩ :=
      walAfter_inv smax hs ops hok
    have hprops := chain_dir_props smax L 0
      (walAfter smax ops).active.base_offset afr
      (walAfter smax ops).active.fileData.length hchain
    have hmap : ((walAfter smax ops).dir.map fun f =>
        (⟨f.1, f.1 + f.2.length⟩ : Segment)) =
        layoutSegs L (walAfter smax ops).active.base_offset
          (walAfter smax ops).active.fileData.length := by
      unfold Writer.dir layoutSegs
      rw [hsealed]
      simp [List.map_map, Function.comp]
    have hsod : segmentsOfDir (walAfter smax ops).dir =
        layoutSegs L (walAfter smax ops).active.base_offset
          (walAfter smax ops).active.fileData.length := by
      unfold segmentsOfDir
      rw [hmap]
      exact sortSegs_of_sorted _ hprops.1
    refine ⟨layoutSegs L (walAfter smax ops).active.base_offset
      (walAfter smax ops).active.fileData.length, ?_, by simp [layoutSegs],
      hprops.1, hprops.2.1, hprops.2.2⟩
    simp only [list_segments]
    rw [hsod, if_pos ((checkContiguous_iff _).mpr hprops.2.1)]
  · intro dir hc
    simp only [list_segments]
    rw [if_neg (by simp [hc])]

/-- C7 witness: one append of the payload 1, 2, 3 followed by a flush, and a
directory with a gap (files based at 0 and 5 of sizes 1 and 2). -/
theorem c7_list_segments_invariant_witness :
    (∃ segs, list_segments
        (walAfter 64 [WalOp.append [1, 2, 3], WalOp.flush]).dir = .ok segs ∧
      segs ≠ [] ∧ segs.Sorted (fun a b => a.base_offset ≤ b.base_offset) ∧
      List.Chain' (fun x y => x.top_offset = y.base_offset) segs ∧
      ∀ s ∈ segs.dropLast, 64 ≤ s.top_offset - s.base_offset) ∧
    list_segments [(0, [1]), (5, [2])] = .error .corruptionError := by
  have h := c7_list_segments_invariant 64 (by decide)
    [WalOp.append [1, 2, 3], WalOp.flush] (by decide)
  exact ⟨h.1, h.2 [(0, [1]), (5, [2])] (by decide)⟩

theorem chain_append_right (smax : Nat) : ∀ (xs : List (Nat × List (List Nat)))
    (b0 : Nat) (ys : List (Nat × List (List Nat))),
    chain smax b0 (xs ++ ys) → ∃ b1, chain smax b1 ys := by
  intro xs
  induction xs with
  | nil => intro b0 ys h; exact ⟨b0, h⟩
  | cons x xs2 ih =>
      intro b0 ys h
      obtain ⟨xb, xfs⟩ := x
      exact ih _ _ h.2.2.2.2

/-- Segments placed before another segment in a chain have strictly smaller
base offsets (they are sealed, hence at least `smax > 0` bytes wide). -/
theorem chain_pre_lt (smax : Nat) (hs : 0 < smax) :
    ∀ (pre : List (Nat × List (List Nat))) (b0 : Nat)
    (r1 : Nat × List (List Nat)) (post : List (Nat × List (List Nat))),
    chain smax b0 (pre ++ r1 :: post) → ∀ s ∈ pre, s.1 < r1.1 := by
  intro pre
  induction pre with
  | nil => intro _ _ _ _ s hs2; cases hs2
  | cons x pre2 ih =>
      intro b0 r1 post hch s hsm
      obtain ⟨xb, xfs⟩ := x
      obtain ⟨hb, hf, hp, hne, hrest⟩ := hch
      have hsz : smax ≤ (framesBytes xfs).length := hne (by simp)
      rcases List.mem_cons.mp hsm with h | h
      · subst h
        have hr1 : xb + (framesBytes xfs).length ≤ r1.1 :=
          chain_base_le smax _ _ hrest r1 (List.mem_append_right _ (by simp))
        simp only []
        omega
      · exact ih _ r1 post hrest s h

/-- Looking a segment file up by its base offset in the directory of a
chained layout finds exactly that segment. -/
theorem find_dirOfLayout (smax : Nat) (hs : 0 < smax)
    (pre : List (Nat × List (List Nat))) (b0 : Nat)
    (r1 : Nat × List (List Nat)) (post : List (Nat × List (List Nat)))
    (hch : chain smax b0 (pre ++ r1 :: post)) :
    (dirOfLayout (pre ++ r1 :: post)).find? (fun f => f.1 == r1.1) =
      some (r1.1, framesBytes r1.2) := by
  unfold dirOfLayout
  rw [List.map_append, List.find?_append]
  have hnone : ((pre.map fun s => (s.1, framesBytes s.2)).find?
      fun f => f.1 == r1.1) = none := by
    rw [List.find?_eq_none]
    intro x hx
    rcases List.mem_map.mp hx with ⟨z, hz, he⟩
    have hlt := chain_pre_lt smax hs pre b0 r1 post hch z hz
    rw [← he]
    simp only [beq_iff_eq]
    omega
  rw [hnone, Option.none_or, List.map_cons]
  exact List.find?_cons_of_pos _ (by simp)

theorem openSegment_layout (smax : Nat) (hs : 0 < smax)
    (pre : List (Nat × List (List Nat))) (b0 : Nat)
    (r1 : Nat × List (List Nat)) (post : List (Nat × List (List Nat)))
    (hch : chain smax b0 (pre ++ r1 :: post)) :
    openSegment (dirOfLayout (pre ++ r1 :: post)) r1.1 =
      .ok ⟨r1.1, framesBytes r1.2, 0⟩ := by
  unfold openSegment
  rw [find_dirOfLayout smax hs pre b0 r1 post hch]

theorem readN_succ (smax : Nat) (r r2 : Reader) (o : Option (List Nat))
    (k : Nat) (lst : List (Option (List Nat)))
    (h1 : Reader.next smax r = .ok (o, r2)) (h2 : readN smax r2 k = .ok lst) :
    readN smax r (k + 1) = .ok (o :: lst) := by
  unfold readN
  rw [h1]
  show (readN smax r2 k >>= fun rest => Except.ok (o :: rest)) = _
  rw [h2, ok_bind]

theorem reader_next_no_cross (smax : Nat) (dir : List DirFile)
    (sr : SegmentReader) (hlt : sr.current_pos < smax)
    (o : Option (List Nat)) (pos : Nat)
    (hseg : segNext sr.data sr.current_pos = .ok (o, pos)) :
    Reader.next smax ⟨dir, sr⟩ =
      .ok (o, ⟨dir, { sr with current_pos := pos }⟩) := by
  unfold Reader.next
  rw [if_neg (Nat.not_le.mpr hlt : ¬ smax ≤ sr.num_bytes)]
  simp only [ok_bind]
  rw [hseg]

theorem reader_next_cross (smax : Nat) (dir : List DirFile)
    (sr : SegmentReader) (hge : smax ≤ sr.num_bytes)
    (sr2 : SegmentReader)
    (hopen : openSegment dir sr.current_offset = .ok sr2)
    (o : Option (List Nat)) (pos : Nat)
    (hseg : segNext sr2.data sr2.current_pos = .ok (o, pos)) :
    Reader.next smax ⟨dir, sr⟩ =
      .ok (o, ⟨dir, { sr2 with current_pos := pos }⟩) := by
  unfold Reader.next
  dsimp only
  rw [if_pos hge, hopen]
  simp only [ok_bind]
  rw [hseg]

/-- Walking the reader over a chained layout from a record boundary: each
`next` call returns the next record, re-opening on the successor segment when
the current one is exhausted at or beyond the threshold, and the call after
the last record returns `none`. `R` is the list of records still ahead; the
reader sits after the records `fs1` of the segment based at `b`. -/
theorem readN_layout (smax : Nat) (hs : 0 < smax) :
    ∀ (R : List (List Nat)) (L done : List (Nat × List (List Nat))) (b : Nat)
      (fs1 fs2 : List (List Nat)) (rest : List (Nat × List (List Nat))),
    L = done ++ (b, fs1 ++ fs2) :: rest →
    chain smax 0 L →
    (∀ s, L.getLast? = some s → (framesBytes s.2).length < smax) →
    (∀ s, L.getLast? = some s → s.2 = [] → L = [s]) →
    R = fs2 ++ (rest.map Prod.snd).flatten →
    readN smax ⟨dirOfLayout L,
      ⟨b, framesBytes (fs1 ++ fs2), (framesBytes fs1).length⟩⟩ (R.length + 1) =
      .ok (R.map some ++ [none]) := by
  intro R
  induction R with
  | nil =>
      intro L done b fs1 fs2 rest hL hch hsize hact hR
      obtain ⟨hfs2, hflat⟩ := List.append_eq_nil.mp hR.symm
      subst hfs2
      have hrest : rest = [] := by
        cases hr : rest with
        | nil => rfl
        | cons r1 rest2 =>
            subst hr
            have hr1nil : r1.2 = [] :=
              (List.flatten_eq_nil_iff.mp hflat) r1.2
                (List.mem_map.mpr ⟨r1, List.mem_cons_self _ _, rfl⟩)
            cases hr2 : rest2 with
            | cons r2 rest3 =>
                subst hr2
                have hL2 : L = (done ++ [(b, fs1 ++ [])]) ++ r1 :: r2 :: rest3 := by
                  rw [hL]; simp
                obtain ⟨b1, hch1⟩ := chain_append_right smax
                  (done ++ [(b, fs1 ++ [])]) 0 (r1 :: r2 :: rest3) (hL2 ▸ hch)
                obtain ⟨r1b, r1fs⟩ := r1
                obtain ⟨_, _, _, hne1, _⟩ := hch1
                have hsz1 : smax ≤ (framesBytes r1fs).length := hne1 (by simp)
                simp only [] at hr1nil
                rw [hr1nil] at hsz1
                simp [framesBytes] at hsz1
                omega
            | nil =>
                subst hr2
                have hlast : L.getLast? = some r1 := by
                  rw [hL]; simp
                have hLr1 := hact r1 hlast hr1nil
                have hlen : L.length = done.length + 2 := by rw [hL]; simp
                rw [hLr1] at hlen
                simp at hlen
      subst hrest
      have hlast : L.getLast? = some (b, fs1 ++ []) := by
        rw [hL]; simp
      have hsz := hsize _ hlast
      simp only [List.append_nil] at hsz
      have hnext : Reader.next smax ⟨dirOfLayout L,
          ⟨b, framesBytes (fs1 ++ []), (framesBytes fs1).length⟩⟩ =
          .ok (none, ⟨dirOfLayout L,
            ⟨b, framesBytes (fs1 ++ []), (framesBytes fs1).length⟩⟩) := by
        have hseg : segNext (framesBytes (fs1 ++ []))
            ((framesBytes fs1).length) = .ok (none, (framesBytes fs1).length) := by
          rw [List.append_nil]
          simp [segNext, List.drop_length]
        exact reader_next_no_cross smax _ _ hsz none _ hseg
      exact readN_succ smax _ _ none 0 [] hnext rfl
  | cons p R2 ih =>
      intro L done b fs1 fs2 rest hL hch hsize hact hR
      obtain ⟨b1, hch1⟩ := chain_append_right smax done 0 _ (hL ▸ hch)
      obtain ⟨hb1, hfok, hpok, hnel, hchrest⟩ := hch1
      cases fs2 with
      | cons q fs2' =>
          rw [List.cons_append] at hR
          obtain ⟨hpq, hR2⟩ := List.cons_eq_cons.mp hR
          subst hpq
          have hq_ok := hpok p (by simp)
          have hposlt : (framesBytes fs1).length < smax := by
            have h := hfok fs1.length (by simp)
            rw [List.take_left] at h
            exact h
          have hseg : segNext (framesBytes (fs1 ++ p :: fs2'))
              ((framesBytes fs1).length) =
              .ok (some p, (framesBytes fs1).length + HEADER_NUM_BYTES + p.length) := by
            apply segNext_encode _ _ p (framesBytes fs2')
            · rw [framesBytes_append, List.drop_left, framesBytes_cons]
            · exact hq_ok.1
            · exact hq_ok.2
          have hnext := reader_next_no_cross smax (dirOfLayout L)
            ⟨b, framesBytes (fs1 ++ p :: fs2'), (framesBytes fs1).length⟩ hposlt
            (some p) _ hseg
          have hlists : fs1 ++ p :: fs2' = (fs1 ++ [p]) ++ fs2' := by simp
          have hplen : (framesBytes fs1).length + HEADER_NUM_BYTES + p.length =
              (framesBytes (fs1 ++ [p])).length := by
            rw [framesBytes_append, framesBytes_singleton, List.length_append,
              encodeFrame_length]
            omega
          rw [hlists] at hL
          have hIH := ih L done b (fs1 ++ [p]) fs2' rest hL hch hsize hact hR2
          have hnext2 : Reader.next smax ⟨dirOfLayout L,
              ⟨b, framesBytes (fs1 ++ p :: fs2'), (framesBytes fs1).length⟩⟩ =
              .ok (some p, ⟨dirOfLayout L, ⟨b, framesBytes ((fs1 ++ [p]) ++ fs2'),
                (framesBytes (fs1 ++ [p])).length⟩⟩) := by
            rw [hnext, ← hlists, ← hplen]
          exact readN_succ smax _ _ (some p) (R2.length + 1)
            (R2.map some ++ [none]) hnext2 hIH
      | nil =>
          simp only [List.nil_append] at hR
          cases hr : rest with
          | nil =>
              subst hr
              simp at hR
          | cons r1 rest2 =>
              subst hr
              obtain ⟨r1b, r1fs⟩ := r1
              obtain ⟨hr1b, hr1fok, hr1pok, hr1ne, hchrest2⟩ := hchrest
              rw [List.append_nil] at hr1b
              subst hr1b
              have hr1ne2 : r1fs ≠ [] := by
                cases hrr : rest2 with
                | cons r2 rest3 =>
                    have hsz1 := hr1ne (by simp [hrr])
                    intro hnil
                    rw [hnil] at hsz1
                    simp [framesBytes] at hsz1
                    omega
                | nil =>
                    intro hnil
                    have hlast : L.getLast? =
                        some (b + (framesBytes fs1).length, r1fs) := by
                      rw [hL, hrr]; simp
                    have hLr1 := hact _ hlast hnil
                    have hlen : L.length = done.length + 2 := by
                      rw [hL, hrr]; simp
                    rw [hLr1] at hlen
                    simp at hlen
              obtain ⟨g, gs, hg⟩ := List.exists_cons_of_ne_nil hr1ne2
              subst hg
              have hpg : p = g ∧ R2 = gs ++ (rest2.map Prod.snd).flatten := by
                simp only [List.map_cons, List.flatten_cons,
                  List.cons_append] at hR
                exact List.cons_eq_cons.mp hR
              obtain ⟨hpg1, hR2⟩ := hpg
              subst hpg1
              have hge : smax ≤ (framesBytes fs1).length := by
                have h := hnel (by simp)
                rwa [List.append_nil] at h
              have hL2 : L = (done ++ [(b, fs1 ++ [])]) ++
                  (b + (framesBytes fs1).length, p :: gs) :: rest2 := by
                rw [hL]; simp
              have hopen : openSegment (dirOfLayout L)
                  (b + (framesBytes fs1).length) =
                  .ok ⟨b + (framesBytes fs1).length, framesBytes (p :: gs), 0⟩ := by
                rw [hL2]
                exact openSegment_layout smax hs (done ++ [(b, fs1 ++ [])]) 0
                  (b + (framesBytes fs1).length, p :: gs) rest2 (hL2 ▸ hch)
              have hp_ok := hr1pok p (by simp)
              have hseg : segNext (framesBytes (p :: gs)) 0 =
                  .ok (some p, 0 + HEADER_NUM_BYTES + p.length) := by
                apply segNext_encode _ _ p (framesBytes gs)
                · rw [framesBytes_cons]
                  rfl
                · exact hp_ok.1
                · exact hp_ok.2
              have hco : SegmentReader.current_offset
                  ⟨b, framesBytes (fs1 ++ []), (framesBytes fs1).length⟩ =
                  b + (framesBytes fs1).length := rfl
              have hnext := reader_next_cross smax (dirOfLayout L)
                ⟨b, framesBytes (fs1 ++ []), (framesBytes fs1).length⟩
                hge ⟨b + (framesBytes fs1).length, framesBytes (p :: gs), 0⟩
                (hco ▸ hopen) (some p) _ hseg
              have hIH := ih L (done ++ [(b, fs1 ++ [])])
                (b + (framesBytes fs1).length) [p] gs rest2
                (by rw [hL]; simp) hch hsize hact hR2
              have hplen2 : 0 + HEADER_NUM_BYTES + p.length =
                  (framesBytes [p]).length := by
                rw [framesBytes_singleton, encodeFrame_length]
                omega
              have hnext2 : Reader.next smax ⟨dirOfLayout L,
                  ⟨b, framesBytes (fs1 ++ []), (framesBytes fs1).length⟩⟩ =
                  .ok (some p, ⟨dirOfLayout L,
                    ⟨b + (framesBytes fs1).length, framesBytes ([p] ++ gs),
                      (framesBytes [p]).length⟩⟩) := by
                rw [hnext, ← hplen2]
                rfl
              exact readN_succ smax _ _ (some p) (R2.length + 1)
                (R2.map some ++ [none]) hnext2 hIH

theorem opsPayloads_map_append (ps : List (List Nat)) :
    opsPayloads (ps.map WalOp.append ++ [WalOp.flush]) = ps := by
  unfold opsPayloads
  rw [List.filterMap_append, List.filterMap_map]
  have hcomp : ((fun op => match op with
      | WalOp.append p => some p
      | WalOp.flush => none) ∘ WalOp.append) = some := rfl
  rw [hcomp, List.filterMap_some]
  simp

theorem walAfter_flush_eq (smax : Nat) (ops : List WalOp) :
    walAfter smax (ops ++ [WalOp.flush]) = Writer.flush (walAfter smax ops) := by
  unfold walAfter
  rw [List.foldl_append]
  rfl

theorem list_segments_layout (smax : Nat)
    (L : List (Nat × List (List Nat))) (ab : Nat) (afr : List (List Nat))
    (hch : chain smax 0 (L ++ [(ab, afr)])) :
    list_segments (dirOfLayout (L ++ [(ab, afr)])) =
      .ok (layoutSegs L ab (framesBytes afr).length) := by
  have hprops := chain_dir_props smax L 0 ab afr (framesBytes afr).length hch
  have hmap : ((dirOfLayout (L ++ [(ab, afr)])).map fun f =>
      (⟨f.1, f.1 + f.2.length⟩ : Segment)) =
      layoutSegs L ab (framesBytes afr).length := by
    unfold dirOfLayout layoutSegs
    simp [List.map_map, Function.comp]
  have hsod : segmentsOfDir (dirOfLayout (L ++ [(ab, afr)])) =
      layoutSegs L ab (framesBytes afr).length := by
    unfold segmentsOfDir
    rw [hmap]
    exact sortSegs_of_sorted _ hprops.1
  simp only [list_segments]
  rw [hsod, if_pos ((checkContiguous_iff _).mpr hprops.2.1)]

theorem reader_open_eq (dir : List DirFile) (s0 : Segment)
    (segsT : List Segment) (sr : SegmentReader)
    (hls : list_segments dir = .ok (s0 :: segsT))
    (hop : openSegment dir s0.base_offset = .ok sr) :
    Reader.open dir = .ok ⟨dir, sr⟩ := by
  unfold Reader.open
  rw [hls]
  simp only [ok_bind]
  rw [hop]
  simp only [ok_bind]

set_option maxRecDepth 40000 in
/-- C1 counterexample: the claim fails as stated. With the test threshold 64,
append two 37-byte payloads (two 47-byte frames, 94 bytes in one segment) and
flush; the reader returns both payloads, but the third `next` call finds
`num_bytes = 94 ≥ 64` and tries to re-open a segment based at offset 94,
which does not exist, so it fails with an io error instead of returning
`None`. -/
theorem c1_counterexample :
    ((Reader.open (walAfter 64 [WalOp.append (List.replicate 37 65),
        WalOp.append (List.replicate 37 66), WalOp.flush]).dir) >>=
      fun r0 => readN 64 r0 3) = .error .ioError ∧
    ∀ res : List (Option (List Nat)),
      ((Reader.open (walAfter 64 [WalOp.append (List.replicate 37 65),
          WalOp.append (List.replicate 37 66), WalOp.flush]).dir) >>=
        fun r0 => readN 64 r0 3) ≠ .ok res := by
  refine ⟨rfl, ?_⟩
  intro res hok
  rw [show ((Reader.open (walAfter 64 [WalOp.append (List.replicate 37 65),
      WalOp.append (List.replicate 37 66), WalOp.flush]).dir) >>=
      fun r0 => readN 64 r0 3) = .error .ioError from rfl] at hok
  exact Except.noConfusion hok

/-- C1 (amended): appending `P_1, …, P_n` through the WAL writer into an
initially empty directory and flushing, a reader opened on that directory
returns exactly `P_1, …, P_n` in order over successive `next` calls and then
`None`, crossing rollover boundaries by re-opening on the segment based at
the current offset — provided every payload length fits the u32 length field
and the final write segment stays below `SEGMENT_MAX_NUM_BYTES` (otherwise
the call after `P_n` fails attempting to open a nonexistent successor
segment, as the counterexample shows). -/
theorem c1_reader_roundtrip_amended (smax : Nat) (hs : 0 < smax)
    (ps : List (List Nat))
    (hok : ∀ p ∈ ps, p.length < 2 ^ 32 ∧ ∀ b ∈ p, b < 256)
    (hlastsz : (walAfter smax
      (ps.map WalOp.append ++ [WalOp.flush])).active.num_bytes < smax) :
    ((Reader.open (walAfter smax
        (ps.map WalOp.append ++ [WalOp.flush])).dir) >>=
      fun r0 => readN smax r0 (ps.length + 1)) =
      .ok (ps.map some ++ [none]) := by
  have hokops : ∀ p ∈ opsPayloads (ps.map WalOp.append ++ [WalOp.flush]),
      p.length < 2 ^ 32 ∧ ∀ b ∈ p, b < 256 := by
    rw [opsPayloads_map_append]
    exact hok
  obtain ⟨L, afr, hsealed, hdata, hchain, hemp, hps⟩ :=
    walAfter_inv smax hs (ps.map WalOp.append ++ [WalOp.flush]) hokops
  rw [opsPayloads_map_append] at hps
  have hw : walAfter smax (ps.map WalOp.append ++ [WalOp.flush]) =
      Writer.flush (walAfter smax (ps.map WalOp.append)) :=
    walAfter_flush_eq smax (ps.map WalOp.append)
  have hfd : (walAfter smax
      (ps.map WalOp.append ++ [WalOp.flush])).active.fileData =
      (walAfter smax (ps.map WalOp.append ++ [WalOp.flush])).active.data := by
    rw [hw]
    simp [Writer.flush, SegmentWriter.flush, SegmentWriter.fileData,
      List.take_length]
  have hdir : (walAfter smax (ps.map WalOp.append ++ [WalOp.flush])).dir =
      dirOfLayout (L ++ [((walAfter smax
        (ps.map WalOp.append ++ [WalOp.flush])).active.base_offset, afr)]) := by
    unfold Writer.dir dirOfLayout
    rw [hfd, hsealed, hdata, List.map_append]
    rfl
  have hsz : (framesBytes afr).length < smax := by
    rw [← hdata]
    exact hlastsz
  have hsize : ∀ s, (L ++ [((walAfter smax
      (ps.map WalOp.append ++ [WalOp.flush])).active.base_offset,
      afr)]).getLast? = some s → (framesBytes s.2).length < smax := by
    intro s hgl
    simp only [List.getLast?_concat, Option.some.injEq] at hgl
    rw [← hgl]
    exact hsz
  have hact : ∀ s, (L ++ [((walAfter smax
      (ps.map WalOp.append ++ [WalOp.flush])).active.base_offset,
      afr)]).getLast? = some s → s.2 = [] →
      L ++ [((walAfter smax
        (ps.map WalOp.append ++ [WalOp.flush])).active.base_offset, afr)] = [s] := by
    intro s hgl hnil
    simp only [List.getLast?_concat, Option.some.injEq] at hgl
    subst hgl
    simp only [] at hnil
    rw [hemp hnil]
    rfl
  rw [hdir]
  cases hLc : L with
  | nil =>
      subst hLc
      have hab : (walAfter smax
          (ps.map WalOp.append ++ [WalOp.flush])).active.base_offset = 0 :=
        hchain.1
      have hls := list_segments_layout smax []
        (walAfter smax (ps.map WalOp.append ++ [WalOp.flush])).active.base_offset
        afr hchain
      have hop := openSegment_layout smax hs [] 0
        ((walAfter smax
          (ps.map WalOp.append ++ [WalOp.flush])).active.base_offset, afr)
        [] hchain
      have hopen := reader_open_eq _ _ _ _ hls hop
      rw [hopen, ok_bind]
      have hR : ps = afr ++ (([] : List (Nat × List (List Nat))).map
          Prod.snd).flatten := by
        simpa using hps
      have hread := readN_layout smax hs ps _ []
        (walAfter smax (ps.map WalOp.append ++ [WalOp.flush])).active.base_offset
        [] afr [] rfl hchain hsize hact hR
      simpa using hread
  | cons f0 LT =>
      subst hLc
      have hb0 : f0.1 = 0 := by
        obtain ⟨fb, ffs⟩ := f0
        exact hchain.1
      have hls := list_segments_layout smax (f0 :: LT)
        (walAfter smax (ps.map WalOp.append ++ [WalOp.flush])).active.base_offset
        afr hchain
      have hop := openSegment_layout smax hs [] 0 f0
        (LT ++ [((walAfter smax
          (ps.map WalOp.append ++ [WalOp.flush])).active.base_offset, afr)])
        hchain
      obtain ⟨fb, ffs⟩ := f0
      rw [layoutSegs_cons] at hls
      have hopen := reader_open_eq _ _ _ _ hls hop
      rw [hopen, ok_bind]
      have hR : ps = ffs ++ ((LT ++ [((walAfter smax
          (ps.map WalOp.append ++ [WalOp.flush])).active.base_offset,
          afr)]).map Prod.snd).flatten := by
        rw [hps]
        simp
      have hread := readN_layout smax hs ps _ [] fb [] ffs
        (LT ++ [((walAfter smax
          (ps.map WalOp.append ++ [WalOp.flush])).active.base_offset, afr)])
        rfl hchain hsize hact hR
      simpa using hread

/-- C1 witness: a single two-byte payload round-trips through writer, flush
and reader, then `None`. -/
theorem c1_reader_roundtrip_amended_witness :
    ((Reader.open (walAfter 64 (([[72, 105]] : List (List Nat)).map
        WalOp.append ++ [WalOp.flush])).dir) >>=
      fun r0 => readN 64 r0 (([[72, 105]] : List (List Nat)).length + 1)) =
      .ok (([[72, 105]] : List (List Nat)).map some ++ [none]) :=
  c1_reader_roundtrip_amended 64 (by decide) [[72, 105]] (by decide) (by decide)

theorem decimalDigitsAux_spec : ∀ (fuel n : Nat), n < 10 ^ fuel →
    (decimalDigitsAux fuel n).length ≤ fuel ∧
    (∀ c ∈ decimalDigitsAux fuel n, 48 ≤ c ∧ c ≤ 57) ∧
    ∀ acc : Nat,
      (decimalDigitsAux fuel n).foldl (fun a c => a * 10 + (c - 48)) acc =
        acc * 10 ^ (decimalDigitsAux fuel n).length + n := by
  intro fuel
  induction fuel with
  | zero =>
      intro n hn
      have hn0 : n = 0 := by simpa using hn
      subst hn0
      exact ⟨by simp [decimalDigitsAux], by simp [decimalDigitsAux],
        fun acc => by simp [decimalDigitsAux]⟩
  | succ f ih =>
      intro n hn
      by_cases h0 : n = 0
      · subst h0
        exact ⟨by simp [decimalDigitsAux], by simp [decimalDigitsAux],
          fun acc => by simp [decimalDigitsAux]⟩
      · have hdiv : n / 10 < 10 ^ f := by
          rw [Nat.div_lt_iff_lt_mul (by norm_num)]
          calc n < 10 ^ (f + 1) := hn
            _ = 10 ^ f * 10 := by rw [pow_succ]
        obtain ⟨ihlen, ihmem, ihfold⟩ := ih (n / 10) hdiv
        simp only [decimalDigitsAux, if_neg h0]
        refine ⟨?_, ?_, ?_⟩
        · simp only [List.length_append, List.length_singleton]
          omega
        · intro c hc
          rcases List.mem_append.mp hc with h | h
          · exact ihmem c h
          · rw [List.mem_singleton.mp h]
            omega
        · intro acc
          rw [List.foldl_append]
          simp only [List.foldl_cons, List.foldl_nil]
          rw [ihfold acc]
          simp only [List.length_append, List.length_singleton, pow_succ]
          have hmod : 48 + n % 10 - 48 = n % 10 := by omega
          rw [hmod, Nat.add_mul, Nat.mul_assoc]
          omega

theorem decimalValue_pad : ∀ (k : Nat) (rest : List Nat),
    decimalValue (List.replicate k 48 ++ rest) = decimalValue rest := by
  intro k
  induction k with
  | zero => intro rest; rfl
  | succ m ih =>
      intro rest
      show (List.replicate (m + 1) 48 ++ rest).foldl
        (fun a c => a * 10 + (c - 48)) 0 = decimalValue rest
      rw [List.replicate_succ, List.cons_append, List.foldl_cons]
      exact ih rest

/-- C9 counterexample: on the five-byte file name `0.log` the byte-range
slice `filename[0..20]` is out of bounds, so `segment_base_offset` panics
instead of returning the error the claim requires. -/
theorem c9_counterexample :
    segment_base_offset [48, 46, 108, 111, 103] = .panic ∧
    segment_base_offset [48, 46, 108, 111, 103] ≠ .err := by
  refine ⟨rfl, ?_⟩
  intro h
  rw [show segment_base_offset [48, 46, 108, 111, 103] = .panic from rfl] at h
  exact ParseOutcome.noConfusion h

theorem utf8Valid_ascii : ∀ (l : List Nat), (∀ c ∈ l, c < 128) →
    utf8Valid l = true := by
  intro l
  induction l with
  | nil => intro _; rfl
  | cons b rest ih =>
      intro h
      have hb : b < 128 := h b (List.mem_cons_self b rest)
      unfold utf8Valid
      rw [if_pos hb]
      exact ih fun c hc => h c (List.mem_cons_of_mem b hc)

/-- C9 (amended): `segment_base_offset` can panic rather than return an
error: it panics when the file name is not valid UTF-8 (`to_str().unwrap()`),
when the name is shorter than 20 bytes (the slice `filename[0..20]` is out
of range), and when byte 20 of a longer name falls inside a multi-byte
character (the slice end is not a char boundary); on a valid-UTF-8 name of
at least 20 bytes whose byte 20 is on a char boundary it parses the first 20
bytes with `str::parse::<u64>` — which accepts an optional leading plus
sign — and returns an error when they are not a u64 numeral; and parsing
round-trips with formatting: the 20-digit zero-padded name of any u64 base
offset parses back to it. -/
theorem c9_parse_amended (filename : List Nat) (b : Nat) (hb : b < 2 ^ 64) :
    (utf8Valid filename = false → segment_base_offset filename = .panic) ∧
    (filename.length < SEGMENT_FILE_NAME_LEN →
      segment_base_offset filename = .panic) ∧
    (SEGMENT_FILE_NAME_LEN < filename.length →
      isCont (filename.getD SEGMENT_FILE_NAME_LEN 0) = true →
      segment_base_offset filename = .panic) ∧
    (utf8Valid filename = true → SEGMENT_FILE_NAME_LEN ≤ filename.length →
      isCont (filename.getD SEGMENT_FILE_NAME_LEN 0) = false →
      segment_base_offset filename =
        parseU64 (filename.take SEGMENT_FILE_NAME_LEN)) ∧
    segment_base_offset (segment_file_name b) = .ok b := by
  refine ⟨?_, ?_, ?_, ?_, ?_⟩
  · intro h
    unfold segment_base_offset
    rw [if_pos h]
  · intro h
    unfold segment_base_offset
    by_cases hu : utf8Valid filename = false
    · rw [if_pos hu]
    · rw [if_neg hu, if_pos h]
  · intro h1 h2
    unfold segment_base_offset
    by_cases hu : utf8Valid filename = false
    · rw [if_pos hu]
    · rw [if_neg hu, if_neg (Nat.lt_asymm h1), if_pos ⟨h1, h2⟩]
  · intro hu h20 hc
    have hnc : ¬ (SEGMENT_FILE_NAME_LEN < filename.length ∧
        isCont (filename.getD SEGMENT_FILE_NAME_LEN 0) = true) := by
      intro hcond
      rw [hc] at hcond
      exact Bool.noConfusion hcond.2
    unfold segment_base_offset
    rw [if_neg (by rw [hu]; simp), if_neg (Nat.not_lt.mpr h20), if_neg hnc]
  · have hb20 : b < 10 ^ 20 := lt_trans hb (by norm_num)
    obtain ⟨hlen, hmem, hfold⟩ := decimalDigitsAux_spec 20 b hb20
    have hplen : (List.replicate
        (SEGMENT_FILE_NAME_LEN - (decimalDigitsAux 20 b).length) 48 ++
        decimalDigitsAux 20 b).length = SEGMENT_FILE_NAME_LEN := by
      simp only [List.length_append, List.length_replicate,
        SEGMENT_FILE_NAME_LEN]
      omega
    have hname : segment_file_name b =
        (List.replicate (SEGMENT_FILE_NAME_LEN -
          (decimalDigitsAux 20 b).length) 48 ++ decimalDigitsAux 20 b) ++
          [46, 108, 111, 103] := by
      simp [segment_file_name, decimalDigitBytes]
    have hval : decimalValue (List.replicate
        (SEGMENT_FILE_NAME_LEN - (decimalDigitsAux 20 b).length) 48 ++
        decimalDigitsAux 20 b) = b := by
      rw [decimalValue_pad]
      show (decimalDigitsAux 20 b).foldl (fun a c => a * 10 + (c - 48)) 0 = b
      rw [hfold 0]
      simp
    have hdig : (List.replicate
        (SEGMENT_FILE_NAME_LEN - (decimalDigitsAux 20 b).length) 48 ++
        decimalDigitsAux 20 b).all isDigitByte = true := by
      rw [List.all_eq_true]
      intro c hc
      rcases List.mem_append.mp hc with h | h
      · rw [List.eq_of_mem_replicate h]
        rfl
      · have := hmem c h
        simp only [isDigitByte, Bool.and_eq_true, decide_eq_true_eq]
        omega
    have hascii : ∀ c ∈ segment_file_name b, c < 128 := by
      rw [hname]
      intro c hc
      rcases List.mem_append.mp hc with h | h
      · rcases List.mem_append.mp h with h1 | h1
        · rw [List.eq_of_mem_replicate h1]
          omega
        · have := hmem c h1
          omega
      · simp only [List.mem_cons, List.not_mem_nil, or_false] at h
        rcases h with h | h | h | h <;> omega
    have hu : utf8Valid (segment_file_name b) = true :=
      utf8Valid_ascii _ hascii
    have hget : (segment_file_name b).getD SEGMENT_FILE_NAME_LEN 0 = 46 := by
      rw [hname, List.getD_eq_getElem?_getD,
        List.getElem?_append_right (by rw [hplen]), hplen]
      rfl
    have hlen24 : SEGMENT_FILE_NAME_LEN < (segment_file_name b).length := by
      rw [hname, List.length_append, hplen]
      simp
    have hnc : ¬ (SEGMENT_FILE_NAME_LEN < (segment_file_name b).length ∧
        isCont ((segment_file_name b).getD SEGMENT_FILE_NAME_LEN 0) = true) := by
      intro hcond
      rw [hget] at hcond
      exact absurd hcond.2 (by decide)
    have hhead : (List.replicate (SEGMENT_FILE_NAME_LEN -
        (decimalDigitsAux 20 b).length) 48 ++
        decimalDigitsAux 20 b).head? ≠ some 43 := by
      intro hh
      have h43 : (43 : Nat) ∈ List.replicate (SEGMENT_FILE_NAME_LEN -
          (decimalDigitsAux 20 b).length) 48 ++ decimalDigitsAux 20 b :=
        List.mem_of_mem_head? (by rw [hh]; rfl)
      rcases List.mem_append.mp h43 with h | h
      · have := List.eq_of_mem_replicate h
        omega
      · have := hmem 43 h
        omega
    unfold segment_base_offset
    rw [if_neg (by rw [hu]; simp), if_neg (Nat.lt_asymm hlen24), if_neg hnc]
    rw [hname, List.take_append_of_le_length (by rw [hplen]),
      List.take_of_length_le (by rw [hplen])]
    unfold parseU64
    rw [if_neg hhead]
    unfold parseU64Digits
    rw [if_pos ⟨by
        intro hnil
        have := congrArg List.length hnil
        rw [hplen] at this
        simp [SEGMENT_FILE_NAME_LEN] at this,
      hdig, by rw [hval]; exact hb⟩, hval]

/-- C9 witness: each case evaluated concretely — a non-UTF-8 name, the short
name `0.log`, a 21-byte name whose byte 20 sits inside a two-byte character,
a 20-byte non-numeric name reaching the parser, and the round trip at base
offset 12. -/
theorem c9_parse_amended_witness :
    segment_base_offset [255] = .panic ∧
    segment_base_offset [48, 46, 108, 111, 103] = .panic ∧
    segment_base_offset (List.replicate 19 48 ++ [195, 169]) = .panic ∧
    segment_base_offset (List.replicate 20 97) =
      parseU64 ((List.replicate 20 97).take SEGMENT_FILE_NAME_LEN) ∧
    segment_base_offset (segment_file_name 12) = .ok 12 :=
  ⟨(c9_parse_amended [255] 12 (by decide)).1 (by decide),
    (c9_parse_amended [48, 46, 108, 111, 103] 12 (by decide)).2.1 (by decide),
    (c9_parse_amended (List.replicate 19 48 ++ [195, 169]) 12
      (by decide)).2.2.1 (by decide) (by decide),
    (c9_parse_amended (List.replicate 20 97) 12 (by decide)).2.2.2.1
      (by decide) (by decide) (by decide),
    (c9_parse_amended [255] 12 (by decide)).2.2.2.2⟩

theorem parse_record_some (x y : List Nat) (h : parse_record x = some y) :
    y = x := by
  unfold parse_record at h
  split at h
  · exact (Option.some.inj h).symm
  · exact Option.noConfusion h

theorem getLast?_cons_elim {α β : Type} (e : α) (es : List α) (d : β)
    (f : α → β) :
    ((e :: es).getLast?).elim d f = (es.getLast?).elim (f e) f := by
  cases es with
  | nil => rfl
  | cons e2 es2 =>
      rw [List.getLast?_cons_cons]
      have hne : e2 :: es2 ≠ [] := by simp
      obtain ⟨x, hx⟩ := List.getLast?_isSome.mpr hne |> Option.isSome_iff_exists.mp
      rw [hx]
      rfl

/-- The result of the `emit_batches` loop when the collected batch stays
under the 5000000-byte limit: the docs are the parses of the valid records in
order, the byte count sums their lengths, the offset lands on the last entry
next offset, and the counters advance per record. -/
theorem processEntries_spec : ∀ (entries : List SrcEntry)
    (st : WalSourceState) (docs : List (List Nat)) (bb : Nat),
    bb + (entries.map fun e => e.payload.length).sum < 5000000 →
    processEntries st docs bb entries =
      ({ st with
          current_offset :=
            (entries.getLast?).elim st.current_offset SrcEntry.next_offset,
          num_bytes_processed := st.num_bytes_processed +
            (entries.map fun e => e.payload.length).sum,
          num_records_processed := st.num_records_processed + entries.length,
          num_invalid_records := st.num_invalid_records +
            (entries.filter fun e => (parse_record e.payload).isNone).length },
        docs ++ entries.filterMap (fun e => parse_record e.payload),
        bb + ((entries.filterMap fun e =>
          parse_record e.payload).map List.length).sum) := by
  intro entries
  induction entries with
  | nil =>
      intro st docs bb hbb
      simp [processEntries, Option.elim]
  | cons e es ih =>
      intro st docs bb hbb
      simp only [List.map_cons, List.sum_cons] at hbb
      cases hp : parse_record e.payload with
      | some doc =>
          have hdoc : doc = e.payload := parse_record_some _ _ hp
          subst hdoc
          simp only [processEntries, hp]
          rw [if_neg (by omega)]
          rw [ih _ _ _ (by omega)]
          dsimp only
          rw [Prod.mk.injEq, Prod.mk.injEq, WalSourceState.mk.injEq]
          refine ⟨⟨rfl, rfl, ?_, ?_, ?_, ?_⟩, ?_, ?_⟩
          · rw [getLast?_cons_elim]
          · simp only [List.map_cons, List.sum_cons]
            omega
          · simp only [List.length_cons]
            omega
          · simp only [List.filter_cons, hp, Option.isNone_some,
              Bool.false_eq_true, if_false]
            omega
          · simp [List.filterMap_cons, hp]
          · simp only [List.filterMap_cons, hp, List.map_cons, List.sum_cons]
            omega
      | none =>
          simp only [processEntries, hp]
          rw [if_neg (by omega)]
          rw [ih _ _ _ (by omega)]
          dsimp only
          rw [Prod.mk.injEq, Prod.mk.injEq, WalSourceState.mk.injEq]
          refine ⟨⟨rfl, rfl, ?_, ?_, ?_, ?_⟩, ?_, ?_⟩
          · rw [getLast?_cons_elim]
          · simp only [List.map_cons, List.sum_cons]
            omega
          · simp only [List.length_cons]
            omega
          · simp only [List.filter_cons, hp, Option.isNone_none, if_true,
              List.length_cons]
            omega
          · simp [List.filterMap_cons, hp]
          · simp only [List.filterMap_cons, hp]

theorem entriesChained_last_gt : ∀ (es : List SrcEntry) (off : Nat)
    (l : SrcEntry), entriesChained off es → es.getLast? = some l →
    off < l.next_offset := by
  intro es
  induction es with
  | nil => intro off l _ h; exact Option.noConfusion h
  | cons e es2 ih =>
      intro off l hch hl
      obtain ⟨heo, hch2⟩ := hch
      cases es2 with
      | nil =>
          have hle : e = l := by
            simpa using hl
          subst hle
          rw [← heo]
          simp only [SrcEntry.next_offset, HEADER_NUM_BYTES]
          omega
      | cons e2 es3 =>
          rw [List.getLast?_cons_cons] at hl
          have h2 := ih e.next_offset l hch2 hl
          have h1 : off < e.next_offset := by
            rw [← heo]
            simp only [SrcEntry.next_offset, HEADER_NUM_BYTES]
            omega
          omega

theorem emit_batches_eq (st : WalSourceState) (entries : List SrcEntry)
    (st2 : WalSourceState) (docs : List (List Nat)) (bb : Nat)
    (hpe : processEntries st [] 0 entries = (st2, docs, bb)) :
    emit_batches st entries =
      if 0 < docs.length then
        match record_partition_delta st2.partition_id st2.previous_position
            (Position.offset st2.current_offset) with
        | .error e => .error e
        | .ok delta =>
            .ok ({ st2 with
              previous_position := Position.offset st2.current_offset },
              some ⟨docs, delta⟩)
      else .ok (st2, none) := by
  unfold emit_batches
  rw [hpe]

/-- C8: in `WalSource::emit_batches` (over the entries the reader yields in
the pass, with the batch under its 5000000-byte bound), every entry whose
payload is nonempty valid UTF-8 is pushed to `docs` with its payload length
added to the batch byte count, an empty or invalid-UTF-8 payload only
increments `num_invalid_records`, in both cases `current_offset` advances to
the entry next offset; and when at least one doc was collected, the
checkpoint delta `(partition_id, previous_position, Offset(current_offset))`
is recorded and `previous_position` becomes `Offset(current_offset)` on the
batch sent to the sink. -/
theorem c8_emit_batches (st : WalSourceState) (entries : List SrcEntry)
    (hb : (entries.map fun e => e.payload.length).sum < 5000000)
    (hchain : entriesChained st.current_offset entries)
    (hprev : st.previous_position = .beginning ∨
      ∃ x, st.previous_position = .offset x ∧ x ≤ st.current_offset) :
    ∀ st2 docs bb, processEntries st [] 0 entries = (st2, docs, bb) →
    docs = (entries.filterMap fun e => parse_record e.payload) ∧
    bb = (docs.map List.length).sum ∧
    st2.num_invalid_records = st.num_invalid_records +
      (entries.filter fun e => (parse_record e.payload).isNone).length ∧
    st2.current_offset =
      (entries.getLast?).elim st.current_offset SrcEntry.next_offset ∧
    (docs ≠ [] → emit_batches st entries =
      .ok ({ st2 with previous_position := Position.offset st2.current_offset },
        some ⟨docs, [(st.partition_id, st.previous_position,
          Position.offset st2.current_offset)]⟩)) ∧
    (docs = [] → emit_batches st entries = .ok (st2, none)) := by
  intro st2 docs bb hpe
  have hspec := processEntries_spec entries st [] 0 (by simpa using hb)
  rw [hpe] at hspec
  injection hspec with hst2 hrest
  injection hrest with hdocs hbb
  refine ⟨by simpa using hdocs, ?_, by rw [hst2], by rw [hst2], ?_, ?_⟩
  · rw [hbb, hdocs]
    simp
  · intro hdne
    have hlen : 0 < docs.length := List.length_pos.mpr hdne
    have hpid : st2.partition_id = st.partition_id := by rw [hst2]
    have hprev2 : st2.previous_position = st.previous_position := by rw [hst2]
    have hltb : Position.ltb st2.previous_position
        (Position.offset st2.current_offset) = true := by
      rw [hprev2]
      rcases hprev with h | ⟨x, hx, hxle⟩
      · rw [h]; rfl
      · rw [hx]
        have hene : entries ≠ [] := by
          intro he
          subst he
          simp only [List.filterMap_nil, List.append_nil] at hdocs
          exact hdne hdocs
        obtain ⟨l, hl⟩ :=
          Option.isSome_iff_exists.mp (List.getLast?_isSome.mpr hene)
        have hcur : st2.current_offset = l.next_offset := by
          rw [hst2]
          show (entries.getLast?).elim st.current_offset SrcEntry.next_offset =
            l.next_offset
          rw [hl]
          rfl
        have hgt := entriesChained_last_gt entries st.current_offset l hchain hl
        rw [hcur]
        simp only [Position.ltb, decide_eq_true_eq]
        omega
    rw [emit_batches_eq st entries st2 docs bb hpe, if_pos hlen]
    unfold record_partition_delta
    rw [if_pos hltb, hpid, hprev2]
  · intro hdnil
    rw [emit_batches_eq st entries st2 docs bb hpe,
      if_neg (by rw [hdnil]; simp)]

/-- Witness for C8: a source at offset 0 with initial position `Beginning`
reads one valid two-byte record followed by one empty record; `emit_batches`
collects one doc, counts one invalid record, advances the offset to 22 and
records the checkpoint delta `(p, Beginning, Offset(22))`. -/
theorem c8_emit_batches_witness :
    emit_batches ⟨r"p", Position.beginning, 0, 0, 0, 0⟩
      [⟨0, [72, 105]⟩, ⟨12, []⟩] =
    .ok (⟨r"p", Position.offset 22, 22, 2, 2, 1⟩,
      some ⟨[[72, 105]],
        [(r"p", Position.beginning, Position.offset 22)]⟩) := by
  have h := c8_emit_batches ⟨r"p", Position.beginning, 0, 0, 0, 0⟩
    [⟨0, [72, 105]⟩, ⟨12, []⟩]
    (by decide) ⟨rfl, rfl, trivial⟩ (Or.inl rfl)
    ⟨r"p", Position.beginning, 22, 2, 2, 1⟩ [[72, 105]] 2 rfl
  exact h.2.2.2.2.1 (by decide)

end QuickwitWal
